import Mathlib

/-!
# Interview-preparation notes server: tree walker, icon lookup and file endpoint

A shallow embedding of `scripts/generate-static-data.js` and `server/server.js`.

* JavaScript strings are Lean strings; the string methods the code calls
  (`endsWith`, `startsWith`, `replace`) are written on the character lists.
* The filesystem a walk sees is a finite tree (`FsNode`, `Listing`): what
  `fs.readdirSync(dir, { withFileTypes: true })` yields, recursively, with the
  outcome of every `readdirSync` and `readFileSync` recorded in the tree.
* `localeCompare` belongs to the host's collation library; it is a parameter of
  the walkers, and `Consistent` states the laws of a consistent comparator.
* `Array.prototype.sort` is stable; on a consistent comparator its result is the
  stable sorted arrangement, which `List.insertionSort` computes.
* `path.join` is the POSIX one: the non-empty arguments joined by `/`, then
  normalized segment by segment.
* The handler of `GET /api/file/:folder/:file(*)` runs against a `Host`: the
  calls it makes to `decodeURIComponent` and to `fs`, each a function of its
  argument; a call that throws returns the error's message. The hosts of the
  examples decode with `decodeURIComponent`, the library function written out.
-/

namespace InterviewPrep

/-! ## JavaScript strings -/

/-- The method `s.endsWith(suffix)`. -/
def endsWith (s suffix : String) : Bool :=
  suffix.data.isSuffixOf s.data

/-- The method `s.startsWith(pre)`. -/
def startsWith (s pre : String) : Bool :=
  pre.data.isPrefixOf s.data

/-- Replacement of the first occurrence of `pat`, scanning from the left;
a text without occurrence is returned unchanged. -/
def replaceFirst (pat rep : List Char) : List Char → List Char
  | [] => if pat = [] then rep else []
  | c :: cs =>
    if pat.isPrefixOf (c :: cs) then rep ++ (c :: cs).drop pat.length
    else c :: replaceFirst pat rep cs

/-- The method `s.replace(pat, rep)` with a string pattern: only the first
occurrence is replaced (`rep` holds no `$` pattern in this program). -/
def replace (s pat rep : String) : String :=
  ⟨replaceFirst pat.data rep.data s.data⟩

/-! ## `path.join` (POSIX) -/

/-- Split a path at every `/`. -/
def splitSlash : List Char → List (List Char)
  | [] => [[]]
  | c :: cs =>
    if c = '/' then [] :: splitSlash cs
    else
      match splitSlash cs with
      | [] => [[c]]
      | seg :: segs => (c :: seg) :: segs

/-- One segment of `normalizeString`: the stack `res` holds the segments kept
so far, the last one first. Empty and `.` segments are dropped, `..` removes
the last kept segment, or is kept itself when nothing can be removed and the
path is relative. -/
def normalizeStep (allowAboveRoot : Bool) (res : List (List Char)) (seg : List Char) :
    List (List Char) :=
  if seg = [] ∨ seg = ['.'] then res
  else if seg = ['.', '.'] then
    match res with
    | [] => if allowAboveRoot then [seg] else []
    | last :: before =>
      if last = ['.', '.'] then (if allowAboveRoot then seg :: res else res) else before
  else seg :: res

/-- The kept segments of a path, in order. -/
def normalizeSegments (allowAboveRoot : Bool) (segs : List (List Char)) : List (List Char) :=
  (segs.foldl (normalizeStep allowAboveRoot) []).reverse

/-- Segments joined by `/`. -/
def joinSlash : List (List Char) → List Char
  | [] => []
  | [seg] => seg
  | seg :: rest => seg ++ '/' :: joinSlash rest

/-- The function `path.posix.normalize` on a character list. -/
def normalizeChars (p : List Char) : List Char :=
  if p = [] then ['.']
  else
    let isAbsolute := p.head? = some '/'
    let trailingSeparator := p.getLast? = some '/'
    let body := joinSlash (normalizeSegments (!decide isAbsolute) (splitSlash p))
    if body = [] then
      if isAbsolute then ['/'] else if trailingSeparator then ['.', '/'] else ['.']
    else
      (if isAbsolute then ['/'] else []) ++ body ++ (if trailingSeparator then ['/'] else [])

/-- The function `path.join(...args)`: the non-empty arguments joined by `/`,
then normalized; `.` when there is none. -/
def pathJoin (args : List String) : String :=
  match (args.filter (fun a => a ≠ "")).map String.data with
  | [] => "."
  | parts => ⟨normalizeChars (joinSlash parts)⟩

/-! ## Icons -/

/-- A value an `icon` field can hold: a string, `undefined`, or a member that
an object literal inherits from `Object.prototype` (a function, or the
prototype object itself for `__proto__`). -/
inductive JsValue where
  | undefined
  | string (s : String)
  | inherited (key : String)
deriving DecidableEq, Repr

/-- Truthiness: `undefined` and the empty string are falsy. -/
def JsValue.truthy : JsValue → Bool
  | .undefined => false
  | .string s => s ≠ ""
  | .inherited _ => true

/-- The operator `a || b`. -/
def JsValue.or (a b : JsValue) : JsValue :=
  if a.truthy then a else b

/-- The names every object literal inherits from `Object.prototype`. -/
def objectPrototypeKeys : List String :=
  ["constructor", "__defineGetter__", "__defineSetter__", "hasOwnProperty",
   "__lookupGetter__", "__lookupSetter__", "isPrototypeOf", "propertyIsEnumerable",
   "toString", "valueOf", "__proto__", "toLocaleString"]

/-- Property access `obj[key]` on an object literal with string values: an own
property first, then the prototype chain, else `undefined`. -/
def getProperty (obj : List (String × String)) (key : String) : JsValue :=
  match obj.lookup key with
  | some v => .string v
  | none => if objectPrototypeKeys.contains key then .inherited key else .undefined

/-- The table `icons` of `getFolderIcon` (the same in both programs). -/
def icons : List (String × String) :=
  [("Angular-Topics-Interview", "🅰️"),
   ("React", "⚛️"),
   ("Javascript", "📜"),
   ("Redux", "🔄"),
   ("Node-Express", "🟢"),
   ("CSS", "🎨"),
   ("MongoDB", "🍃"),
   ("Promise-Async-Await-Sequential-Execution", "⏳"),
   ("Event-Loop-Asynchronous-setTimeout", "🔄"),
   ("Fundamental-Algorithms-JS", "🧮"),
   ("Collection-of-Popular-Problems-with-Solutions", "💡"),
   ("Challenges-from-Popular-Coding-Practice-sites", "🏆"),
   ("Collection-of-TakeHome-Exercises", "📝"),
   ("Git-and-Github", "🌿"),
   ("system-design", "🏗️"),
   ("Web-Development-In-General", "🌐"),
   ("Collections-of-Questions-NOT-drafted-Ans", "❓"),
   ("GraphQL", "🔗"),
   ("Heroku", "☁️"),
   ("HTML", "📄"),
   ("Typscript", "📘"),
   ("webpack", "📦"),
   ("Common-Problem-Set", "🧩"),
   ("General-Soft_Getting_to_Know_Interview_Questions", "🗣️")]

/-- The function `getFolderIcon`: `icons[folderName] || "📁"`. -/
def getFolderIcon (folderName : String) : JsValue :=
  (getProperty icons folderName).or (.string "📁")

/-! ## Filesystem tree and entries -/

mutual
/-- One `Dirent` of a listing, with what the walk can learn below it. For a
non-directory, `content` is the outcome of `fs.readFileSync(fullPath, 'utf8')`
(`none`: the read throws). -/
inductive FsNode where
  | file (name : String) (content : Option String)
  | dir (name : String) (listing : Listing)
/-- The outcome of `fs.readdirSync(dirPath, { withFileTypes: true })`. -/
inductive Listing where
  | fails
  | ok (items : List FsNode)
end

/-- The `name` of a `Dirent`. -/
def FsNode.name : FsNode → String
  | .file name _ => name
  | .dir name _ => name

/-- An object pushed to `files`. The `content` key is present in the generator
only (`none`: no such key). -/
inductive Entry where
  | directory (name path : String) (icon : JsValue) (children : List Entry)
      (hasChildren : Bool)
  | file (name path : String) (icon : JsValue) (fileType : String)
      (content : Option String)
deriving Repr

/-- The field `isDirectory`. -/
def Entry.isDirectory : Entry → Bool
  | .directory .. => true
  | .file .. => false

/-- The field `name`. -/
def Entry.name : Entry → String
  | .directory name .. => name
  | .file name .. => name

/-! ## Sorting -/

/-- The comparator passed to `files.sort`. -/
def compareFn (localeCompare : String → String → Int) (a b : Entry) : Int :=
  if a.isDirectory && !b.isDirectory then -1
  else if !a.isDirectory && b.isDirectory then 1
  else localeCompare a.name b.name

/-- The order the comparator induces: `a` may stand before `b`. -/
def entryLE (localeCompare : String → String → Int) (a b : Entry) : Prop :=
  compareFn localeCompare a b ≤ 0

instance (localeCompare : String → String → Int) : DecidableRel (entryLE localeCompare) :=
  fun a b => inferInstanceAs (Decidable (compareFn localeCompare a b ≤ 0))

/-- The call `files.sort(compareFn)`. -/
def sortEntries (localeCompare : String → String → Int) (files : List Entry) : List Entry :=
  files.insertionSort (entryLE localeCompare)

/-- The laws of a consistent comparator, for `localeCompare`: any two strings
are comparable, and the order is transitive. -/
structure Consistent (localeCompare : String → String → Int) : Prop where
  total : ∀ a b, localeCompare a b ≤ 0 ∨ localeCompare b a ≤ 0
  trans : ∀ a b c, localeCompare a b ≤ 0 → localeCompare b c ≤ 0 → localeCompare a c ≤ 0

/-! ## The generator's walker (`scripts/generate-static-data.js`) -/

namespace Generator

/-- The constant `excludeDirs`. -/
def excludeDirs : List String :=
  [".git", "node_modules", "client", "server", "scripts", "assets"]

/-- The skip test at the head of the loop body. -/
def isExcluded (name : String) : Bool :=
  excludeDirs.contains name || startsWith name "."

mutual
/-- The function `getFilesRecursively(dirPath, relativePath)`; `dirPath` is
given by what listing it yields. A failed listing leaves `files` empty. -/
def getFilesRecursively (localeCompare : String → String → Int) :
    Listing → String → List Entry
  | .fails, _ => sortEntries localeCompare []
  | .ok items, relativePath => sortEntries localeCompare (forEach localeCompare items relativePath)
/-- The loop `items.forEach(...)` inside the `try`: the entries pushed to
`files`, in push order. A `readFileSync` that throws leaves the loop, and
`files` keeps what was pushed before. -/
def forEach (localeCompare : String → String → Int) : List FsNode → String → List Entry
  | [], _ => []
  | .dir name listing :: rest, relativePath =>
    if isExcluded name then forEach localeCompare rest relativePath
    else
      let itemRelativePath := pathJoin [relativePath, name]
      let children := getFilesRecursively localeCompare listing itemRelativePath
      .directory name itemRelativePath (getFolderIcon name) children
          (decide (children.length > 0))
        :: forEach localeCompare rest relativePath
  | .file name content :: rest, relativePath =>
    if isExcluded name then forEach localeCompare rest relativePath
    else
      let itemRelativePath := pathJoin [relativePath, name]
      if endsWith name ".md" then
        match content with
        | none => []
        | some text =>
          .file (replace name ".md" "") itemRelativePath (.string "📄") "markdown" (some text)
            :: forEach localeCompare rest relativePath
      else if endsWith name ".js" && name != "generate-static-data.js" then
        match content with
        | none => []
        | some text =>
          .file name itemRelativePath (.string "📜") "javascript" (some text)
            :: forEach localeCompare rest relativePath
      else forEach localeCompare rest relativePath
end

end Generator

/-! ## The server's walker (`server/server.js`) -/

namespace Server

mutual
/-- The function `getFilesRecursively(dirPath, relativePath)` of the server. -/
def getFilesRecursively (localeCompare : String → String → Int) :
    Listing → String → List Entry
  | .fails, _ => sortEntries localeCompare []
  | .ok items, relativePath => sortEntries localeCompare (forEach localeCompare items relativePath)
/-- The loop `items.forEach(...)`: the entries pushed to `files`. No file is
read here. -/
def forEach (localeCompare : String → String → Int) : List FsNode → String → List Entry
  | [], _ => []
  | .dir name listing :: rest, relativePath =>
    let children := getFilesRecursively localeCompare listing (pathJoin [relativePath, name])
    .directory name (pathJoin [relativePath, name]) (.string "📁") children
        (decide (children.length > 0))
      :: forEach localeCompare rest relativePath
  | .file name _ :: rest, relativePath =>
    if endsWith name ".md" then
      .file (replace name ".md" "") (pathJoin [relativePath, name]) (.string "📄") "markdown" none
        :: forEach localeCompare rest relativePath
    else if endsWith name ".js" then
      .file name (pathJoin [relativePath, name]) (.string "📜") "javascript" none
        :: forEach localeCompare rest relativePath
    else forEach localeCompare rest relativePath
end

end Server

/-- A comparator for examples: strings are compared by their lower-cased
characters' codes, lexicographically. -/
def codeCompare (a b : String) : Int :=
  let ka := a.data.map (fun c => c.toLower.toNat)
  let kb := b.data.map (fun c => c.toLower.toNat)
  if ka < kb then -1 else if ka = kb then 0 else 1

/-! ## Levels of a result -/

/-- The `children` sequences found below the entries of `l`, at any depth. -/
def nestedLevels : List Entry → List (List Entry)
  | [] => []
  | .directory _ _ _ children _ :: rest =>
    (children :: nestedLevels children) ++ nestedLevels rest
  | .file .. :: rest => nestedLevels rest

/-- A sequence of entries together with every `children` sequence inside it. -/
def levels (l : List Entry) : List (List Entry) :=
  l :: nestedLevels l

/-- The sort rule, spelled out: in a pair of entries in this order a directory
is never behind a file, and two entries of the same kind are in non-decreasing
order of `name`. -/
def DirsFirstThenName (localeCompare : String → String → Int) (a b : Entry) : Prop :=
  (b.isDirectory = true → a.isDirectory = true) ∧
  (a.isDirectory = b.isDirectory → localeCompare a.name b.name ≤ 0)

/-! ## Pruned trees -/

mutual
/-- A node with every excluded `Dirent` below it removed. -/
def pruneNode : FsNode → FsNode
  | .file name content => .file name content
  | .dir name listing => .dir name (pruneListing listing)
/-- A listing with every excluded `Dirent` removed, at any depth. -/
def pruneListing : Listing → Listing
  | .fails => .fails
  | .ok items => .ok (pruneItems items)
/-- The items of a listing without the excluded ones, each pruned below. -/
def pruneItems : List FsNode → List FsNode
  | [] => []
  | item :: rest =>
    if Generator.isExcluded item.name then pruneItems rest
    else pruneNode item :: pruneItems rest
end

mutual
/-- The `Dirent` names at and below a node. -/
def FsNode.names : FsNode → List String
  | .file name _ => [name]
  | .dir name listing => name :: listing.names
/-- The `Dirent` names of a listing, at any depth. -/
def Listing.names : Listing → List String
  | .fails => []
  | .ok items => itemNames items
/-- The `Dirent` names of the items of a listing, at any depth. -/
def itemNames : List FsNode → List String
  | [] => []
  | item :: rest => item.names ++ itemNames rest
end

/-- An entry the exclusion policy allows: its `name` does not begin with `.`,
and a directory's `name` passes the generator's skip test. -/
def Entry.Allowed (e : Entry) : Prop :=
  startsWith e.name "." = false ∧ (e.isDirectory = true → Generator.isExcluded e.name = false)

/-- The field `path`. -/
def Entry.path : Entry → String
  | .directory _ path .. => path
  | .file _ path .. => path

/-! ## Comparing the two walkers -/

mutual
/-- An entry with the `content` field removed from every file entry, at any
depth. -/
def Entry.withoutContent : Entry → Entry
  | .directory name path icon children hasChildren =>
    .directory name path icon (withoutContentList children) hasChildren
  | .file name path icon fileType _ => .file name path icon fileType none
/-- A sequence of entries with `content` removed from every file entry. -/
def withoutContentList : List Entry → List Entry
  | [] => []
  | e :: es => e.withoutContent :: withoutContentList es
end

mutual
/-- An entry with `content` removed from every file entry and the `icon` of
every directory entry set to `📁`, at any depth. -/
def Entry.asServed : Entry → Entry
  | .directory name path _ children hasChildren =>
    .directory name path (.string "📁") (asServedList children) hasChildren
  | .file name path icon fileType _ => .file name path icon fileType none
/-- A sequence of entries, each as served. -/
def asServedList : List Entry → List Entry
  | [] => []
  | e :: es => e.asServed :: asServedList es
end

mutual
/-- The trees on which the walkers are compared: below the node no name is
excluded by the generator, no file is named `generate-static-data.js`, and
every `.md` and `.js` file can be read. -/
def FsNode.plain : FsNode → Bool
  | .file name content =>
    !Generator.isExcluded name && name != "generate-static-data.js" &&
      (!(endsWith name ".md" || endsWith name ".js") || content.isSome)
  | .dir name listing => !Generator.isExcluded name && listing.plain
/-- A listing all of whose nodes are plain. -/
def Listing.plain : Listing → Bool
  | .fails => true
  | .ok items => itemsPlain items
/-- Items that are all plain. -/
def itemsPlain : List FsNode → Bool
  | [] => true
  | item :: rest => item.plain && itemsPlain rest
end

/-! ## The single-file endpoint (`GET /api/file/:folder/:file(*)`) -/

/-- What the handler asks of its host; a call that throws returns the error's
message. The filesystem does not change while a request is handled, so each
call is a function of the path. -/
structure Host where
  decodeURIComponent : String → Except String String
  existsSync : String → Bool
  statIsDirectory : String → Except String Bool
  readdirSync : String → Except String (List String)
  readFileSync : String → Except String String

/-- The JSON bodies the handler sends. -/
inductive Body where
  | file (content filePath : String)
  | notFound (error : String) (searched : List String)
  | failed (error details : String)
deriving DecidableEq, Repr

/-- A response: its status and its body. -/
structure Response where
  status : Nat
  body : Body
deriving DecidableEq, Repr

/-- The constant `rootDir`: `path.join(__dirname, '../')`. -/
def rootDir (dirname : String) : String :=
  pathJoin [dirname, "../"]

/-- The array `possiblePaths`. -/
def possiblePaths (rootDir folderName fileName : String) : List String :=
  [pathJoin [rootDir, folderName, fileName],
   pathJoin [rootDir, folderName, fileName ++ ".md"],
   pathJoin [rootDir, folderName, fileName, "README.md"]]

/-- The loop over `possiblePaths`: the first path that exists. -/
def firstExisting (host : Host) : List String → Option String
  | [] => none
  | possiblePath :: rest =>
    if host.existsSync possiblePath then some possiblePath else firstExisting host rest

/-- The block under `if (!filePath)`: the first `.md` file of the subfolder. -/
def findMarkdown (host : Host) (rootDir folderName fileName : String) :
    Except String (Option String) :=
  let subFolderPath := pathJoin [rootDir, folderName, fileName]
  if host.existsSync subFolderPath then do
    let isDirectory ← host.statIsDirectory subFolderPath
    if isDirectory then do
      let names ← host.readdirSync subFolderPath
      match names.filter (fun f => endsWith f ".md") with
      | [] => pure none
      | first :: _ => pure (some (pathJoin [subFolderPath, first]))
    else pure none
  else pure none

/-- The value of `filePath` before the final test (`none`: still `null`). -/
def resolveFilePath (host : Host) (rootDir folderName fileName : String) :
    Except String (Option String) :=
  match firstExisting host (possiblePaths rootDir folderName fileName) with
  | some filePath => pure (some filePath)
  | none => findMarkdown host rootDir folderName fileName

/-- The handler of `GET /api/file/:folder/:file(*)`, for the two route
parameters; `dirname` is `__dirname`. -/
def getFile (host : Host) (dirname folder file : String) : Response :=
  let root := rootDir dirname
  let attempt : Except String Response := do
    let folderName ← host.decodeURIComponent folder
    let fileName ← host.decodeURIComponent file
    let notFound : Response :=
      ⟨404, .notFound "File not found"
        ((possiblePaths root folderName fileName).map (fun p => replace p root ""))⟩
    match (← resolveFilePath host root folderName fileName) with
    | some filePath =>
      if filePath ≠ "" ∧ host.existsSync filePath = true then do
        let content ← host.readFileSync filePath
        pure ⟨200, .file content (replace filePath root "")⟩
      else pure notFound
    | none => pure notFound
  match attempt with
  | .ok response => response
  | .error message => ⟨500, .failed "Failed to read file" message⟩

/-- A path lies inside the root directory: it is the root itself or begins
with the root, which ends with `/`. -/
def insideRoot (rootDir filePath : String) : Bool :=
  startsWith (filePath ++ "/") rootDir

/-- The value of a hexadecimal digit. -/
def hexValue (c : Char) : Option Nat :=
  if '0' ≤ c ∧ c ≤ '9' then some (c.toNat - '0'.toNat)
  else if 'a' ≤ c ∧ c ≤ 'f' then some (c.toNat - 'a'.toNat + 10)
  else if 'A' ≤ c ∧ c ≤ 'F' then some (c.toNat - 'A'.toNat + 10)
  else none

/-- First pass of the library function `decodeURIComponent`: every escape
`%XX` becomes its octet, every other character stays; `none` when a `%` is not
followed by two hexadecimal digits. -/
def unescapeOctets : List Char → Option (List (Char ⊕ Nat))
  | [] => some []
  | c :: rest =>
    if c = '%' then
      match rest with
      | h :: l :: rest' =>
        match hexValue h, hexValue l, unescapeOctets rest' with
        | some a, some b, some tail => some (.inr (16 * a + b) :: tail)
        | _, _, _ => none
      | _ => none
    else
      match unescapeOctets rest with
      | some tail => some (.inl c :: tail)
      | none => none

/-- An octet of the form `10xxxxxx`. -/
def isContinuation (b : Nat) : Bool :=
  decide (0x80 ≤ b ∧ b < 0xC0)

/-- Second pass of `decodeURIComponent`: runs of escaped octets are read as
UTF-8; `none` when they are not the encoding of a code point. -/
def decodeOctets : List (Char ⊕ Nat) → Option (List Char)
  | [] => some []
  | .inl c :: rest =>
    match decodeOctets rest with
    | some tail => some (c :: tail)
    | none => none
  | .inr b :: rest =>
    if b < 0x80 then
      match decodeOctets rest with
      | some tail => some (Char.ofNat b :: tail)
      | none => none
    else if 0xC0 ≤ b ∧ b < 0xE0 then
      match rest with
      | .inr c1 :: rest' =>
        let cp := (b - 0xC0) * 64 + (c1 - 0x80)
        if isContinuation c1 ∧ 0x80 ≤ cp then
          match decodeOctets rest' with
          | some tail => some (Char.ofNat cp :: tail)
          | none => none
        else none
      | _ => none
    else if 0xE0 ≤ b ∧ b < 0xF0 then
      match rest with
      | .inr c1 :: .inr c2 :: rest' =>
        let cp := (b - 0xE0) * 4096 + (c1 - 0x80) * 64 + (c2 - 0x80)
        if isContinuation c1 ∧ isContinuation c2 ∧ 0x800 ≤ cp ∧
            ¬ (0xD800 ≤ cp ∧ cp ≤ 0xDFFF) then
          match decodeOctets rest' with
          | some tail => some (Char.ofNat cp :: tail)
          | none => none
        else none
      | _ => none
    else if 0xF0 ≤ b ∧ b < 0xF8 then
      match rest with
      | .inr c1 :: .inr c2 :: .inr c3 :: rest' =>
        let cp := (b - 0xF0) * 262144 + (c1 - 0x80) * 4096 + (c2 - 0x80) * 64 + (c3 - 0x80)
        if isContinuation c1 ∧ isContinuation c2 ∧ isContinuation c3 ∧ 0x10000 ≤ cp ∧
            cp ≤ 0x10FFFF then
          match decodeOctets rest' with
          | some tail => some (Char.ofNat cp :: tail)
          | none => none
        else none
      | _ => none
    else none

/-- The library function `decodeURIComponent`: the escapes `%XX` of the text
are replaced by the characters they encode in UTF-8; a malformed escape throws
a `URIError`, whose message is `URI malformed`. -/
def decodeURIComponent (s : String) : Except String String :=
  match (unescapeOctets s.data).bind decodeOctets with
  | some chars => .ok ⟨chars⟩
  | none => .error "URI malformed"

/-- A host for examples: one file exists, with the given text. -/
def oneFileHost (filePath text : String) : Host where
  decodeURIComponent := decodeURIComponent
  existsSync := fun p => p == filePath
  statIsDirectory := fun p => if p == filePath then .ok false else .error "ENOENT"
  readdirSync := fun _ => .error "ENOTDIR"
  readFileSync := fun p => if p == filePath then .ok text else .error "ENOENT"

/-- A segment that `normalize` keeps as it is: not empty, not `.`, not `..`,
and without `/`. -/
def PlainSegment (seg : List Char) : Prop :=
  seg ≠ [] ∧ seg ≠ ['.'] ∧ seg ≠ ['.', '.'] ∧ '/' ∉ seg

/-- A name of one path segment: a plain segment. -/
def IsName (s : String) : Prop :=
  PlainSegment s.data

/-- No `/`-separated segment of `s` is `..`. -/
def NoDotDot (s : String) : Prop :=
  ∀ seg ∈ splitSlash s.data, seg ≠ ['.', '.']

/-- The text of a root directory with the kept segments `segs`: `/` when there
is none, else `/seg/.../seg/`. -/
def rootChars (segs : List (List Char)) : List Char :=
  if segs = [] then ['/'] else '/' :: joinSlash segs ++ ['/']

/-- The segments that are neither empty nor `.`. -/
def keptSegments (segs : List (List Char)) : List (List Char) :=
  segs.filter (fun seg => decide (¬ (seg = [] ∨ seg = ['.'])))

/-! ## Unfolding of the loops -/

theorem gen_forEach_dir (cmp : String → String → Int) (name : String) (listing : Listing)
    (rest : List FsNode) (rel : String) :
    Generator.forEach cmp (.dir name listing :: rest) rel =
      if Generator.isExcluded name then Generator.forEach cmp rest rel
      else
        .directory name (pathJoin [rel, name]) (getFolderIcon name)
            (Generator.getFilesRecursively cmp listing (pathJoin [rel, name]))
            (decide ((Generator.getFilesRecursively cmp listing (pathJoin [rel, name])).length > 0))
          :: Generator.forEach cmp rest rel := by
  rw [Generator.forEach]

theorem gen_forEach_file (cmp : String → String → Int) (name : String)
    (content : Option String) (rest : List FsNode) (rel : String) :
    Generator.forEach cmp (.file name content :: rest) rel =
      if Generator.isExcluded name then Generator.forEach cmp rest rel
      else if endsWith name ".md" then
        match content with
        | none => []
        | some text =>
          .file (replace name ".md" "") (pathJoin [rel, name]) (.string "📄") "markdown"
              (some text) :: Generator.forEach cmp rest rel
      else if endsWith name ".js" && name != "generate-static-data.js" then
        match content with
        | none => []
        | some text =>
          .file name (pathJoin [rel, name]) (.string "📜") "javascript" (some text)
            :: Generator.forEach cmp rest rel
      else Generator.forEach cmp rest rel := by
  rw [Generator.forEach]

theorem srv_forEach_dir (cmp : String → String → Int) (name : String) (listing : Listing)
    (rest : List FsNode) (rel : String) :
    Server.forEach cmp (.dir name listing :: rest) rel =
      .directory name (pathJoin [rel, name]) (.string "📁")
          (Server.getFilesRecursively cmp listing (pathJoin [rel, name]))
          (decide ((Server.getFilesRecursively cmp listing (pathJoin [rel, name])).length > 0))
        :: Server.forEach cmp rest rel := by
  rw [Server.forEach]

theorem srv_forEach_file (cmp : String → String → Int) (name : String)
    (content : Option String) (rest : List FsNode) (rel : String) :
    Server.forEach cmp (.file name content :: rest) rel =
      if endsWith name ".md" then
        .file (replace name ".md" "") (pathJoin [rel, name]) (.string "📄") "markdown" none
          :: Server.forEach cmp rest rel
      else if endsWith name ".js" then
        .file name (pathJoin [rel, name]) (.string "📜") "javascript" none
          :: Server.forEach cmp rest rel
      else Server.forEach cmp rest rel := by
  rw [Server.forEach]

/-! ## Lemmas on the sort -/

theorem entryLE_iff (cmp : String → String → Int) (a b : Entry) :
    entryLE cmp a b ↔ DirsFirstThenName cmp a b := by
  unfold entryLE compareFn DirsFirstThenName
  cases ha : a.isDirectory <;> cases hb : b.isDirectory <;> simp

theorem entryLE_total {cmp : String → String → Int} (h : Consistent cmp) (a b : Entry) :
    entryLE cmp a b ∨ entryLE cmp b a := by
  unfold entryLE compareFn
  cases ha : a.isDirectory <;> cases hb : b.isDirectory <;> simp
  · exact h.total _ _
  · exact h.total _ _

theorem entryLE_trans {cmp : String → String → Int} (h : Consistent cmp) (a b c : Entry) :
    entryLE cmp a b → entryLE cmp b c → entryLE cmp a c := by
  unfold entryLE compareFn
  cases ha : a.isDirectory <;> cases hb : b.isDirectory <;> cases hc : c.isDirectory <;> simp
  · exact h.trans _ _ _
  · exact h.trans _ _ _

theorem sortEntries_sorted {cmp : String → String → Int} (h : Consistent cmp) (l : List Entry) :
    (sortEntries cmp l).Sorted (entryLE cmp) := by
  haveI : IsTotal Entry (entryLE cmp) := ⟨entryLE_total h⟩
  haveI : IsTrans Entry (entryLE cmp) := ⟨entryLE_trans h⟩
  exact List.sorted_insertionSort (entryLE cmp) l

theorem sortEntries_perm (cmp : String → String → Int) (l : List Entry) :
    (sortEntries cmp l).Perm l :=
  List.perm_insertionSort (entryLE cmp) l

theorem sortEntries_pairwise {cmp : String → String → Int} (h : Consistent cmp)
    (l : List Entry) : (sortEntries cmp l).Pairwise (DirsFirstThenName cmp) :=
  (sortEntries_sorted h l).imp (fun {a b} hab => (entryLE_iff cmp a b).1 hab)

theorem mem_nestedLevels (lv : List Entry) : ∀ l : List Entry,
    lv ∈ nestedLevels l ↔
      ∃ name path icon children hc, Entry.directory name path icon children hc ∈ l ∧
        (lv = children ∨ lv ∈ nestedLevels children)
  | [] => by simp [nestedLevels]
  | .file n p i t c :: rest => by
    simp [nestedLevels, mem_nestedLevels lv rest]
  | .directory n p i ch hc :: rest => by
    simp only [nestedLevels, List.mem_append, List.mem_cons, mem_nestedLevels lv rest]
    constructor
    · rintro (h | ⟨n', p', i', ch', hc', hm, h⟩)
      · exact ⟨n, p, i, ch, hc, Or.inl rfl, h⟩
      · exact ⟨n', p', i', ch', hc', Or.inr hm, h⟩
    · rintro ⟨n', p', i', ch', hc', hm | hm, h⟩
      · cases hm
        exact Or.inl h
      · exact Or.inr ⟨n', p', i', ch', hc', hm, h⟩

theorem mem_nestedLevels_of_perm {l₁ l₂ : List Entry} (hp : l₁.Perm l₂) (lv : List Entry) :
    lv ∈ nestedLevels l₁ ↔ lv ∈ nestedLevels l₂ := by
  rw [mem_nestedLevels lv l₁, mem_nestedLevels lv l₂]
  simp only [hp.mem_iff]

theorem levels_sortEntries {cmp : String → String → Int} (h : Consistent cmp)
    (l : List Entry) (hl : ∀ lv ∈ nestedLevels l, lv.Pairwise (DirsFirstThenName cmp)) :
    ∀ lv ∈ levels (sortEntries cmp l), lv.Pairwise (DirsFirstThenName cmp) := by
  intro lv hlv
  rcases List.mem_cons.1 hlv with rfl | hn
  · exact sortEntries_pairwise h l
  · exact hl lv ((mem_nestedLevels_of_perm (sortEntries_perm cmp l) lv).1 hn)

mutual
theorem gen_levels_sorted {cmp : String → String → Int} (h : Consistent cmp) :
    ∀ (listing : Listing) (rel : String),
      ∀ lv ∈ levels (Generator.getFilesRecursively cmp listing rel),
        lv.Pairwise (DirsFirstThenName cmp)
  | .fails, rel => by
    rw [Generator.getFilesRecursively]
    exact levels_sortEntries h [] (by simp [nestedLevels])
  | .ok items, rel => by
    rw [Generator.getFilesRecursively]
    exact levels_sortEntries h _ (gen_nested_sorted h items rel)
theorem gen_nested_sorted {cmp : String → String → Int} (h : Consistent cmp) :
    ∀ (items : List FsNode) (rel : String),
      ∀ lv ∈ nestedLevels (Generator.forEach cmp items rel),
        lv.Pairwise (DirsFirstThenName cmp)
  | [], rel => by simp [Generator.forEach, nestedLevels]
  | .dir name listing :: rest, rel => by
    rw [Generator.forEach]
    split
    · exact gen_nested_sorted h rest rel
    · intro lv hlv
      simp only [nestedLevels, List.mem_append] at hlv
      rcases hlv with hlv | hlv
      · exact gen_levels_sorted h listing _ lv hlv
      · exact gen_nested_sorted h rest rel lv hlv
  | .file name content :: rest, rel => by
    have ih := gen_nested_sorted h rest rel
    rw [Generator.forEach]
    split
    · exact ih
    · split
      · cases content with
        | none => simp [nestedLevels]
        | some text => simpa [nestedLevels] using ih
      · split
        · cases content with
          | none => simp [nestedLevels]
          | some text => simpa [nestedLevels] using ih
        · exact ih
end

mutual
theorem srv_levels_sorted {cmp : String → String → Int} (h : Consistent cmp) :
    ∀ (listing : Listing) (rel : String),
      ∀ lv ∈ levels (Server.getFilesRecursively cmp listing rel),
        lv.Pairwise (DirsFirstThenName cmp)
  | .fails, rel => by
    rw [Server.getFilesRecursively]
    exact levels_sortEntries h [] (by simp [nestedLevels])
  | .ok items, rel => by
    rw [Server.getFilesRecursively]
    exact levels_sortEntries h _ (srv_nested_sorted h items rel)
theorem srv_nested_sorted {cmp : String → String → Int} (h : Consistent cmp) :
    ∀ (items : List FsNode) (rel : String),
      ∀ lv ∈ nestedLevels (Server.forEach cmp items rel),
        lv.Pairwise (DirsFirstThenName cmp)
  | [], rel => by simp [Server.forEach, nestedLevels]
  | .dir name listing :: rest, rel => by
    rw [Server.forEach]
    intro lv hlv
    simp only [nestedLevels, List.mem_append] at hlv
    rcases hlv with hlv | hlv
    · exact srv_levels_sorted h listing _ lv hlv
    · exact srv_nested_sorted h rest rel lv hlv
  | .file name content :: rest, rel => by
    have ih := srv_nested_sorted h rest rel
    rw [Server.forEach]
    split
    · simpa [nestedLevels] using ih
    · split
      · simpa [nestedLevels] using ih
      · exact ih
end

theorem codeCompare_consistent : Consistent codeCompare := by
  constructor
  · intro a b
    unfold codeCompare
    rcases lt_trichotomy (a.data.map (fun c => c.toLower.toNat))
      (b.data.map (fun c => c.toLower.toNat)) with h | h | h
    · left; simp [h]
    · left; simp [h]
    · right; simp [h]
  · intro a b c
    unfold codeCompare
    simp only []
    intro hab hbc
    have h1 : a.data.map (fun c => c.toLower.toNat) ≤ b.data.map (fun c => c.toLower.toNat) := by
      by_contra hn
      rw [not_le] at hn
      rw [if_neg (not_lt_of_gt hn), if_neg (ne_of_gt hn)] at hab
      exact absurd hab (by decide)
    have h2 : b.data.map (fun c => c.toLower.toNat) ≤ c.data.map (fun c => c.toLower.toNat) := by
      by_contra hn
      rw [not_le] at hn
      rw [if_neg (not_lt_of_gt hn), if_neg (ne_of_gt hn)] at hbc
      exact absurd hbc (by decide)
    rcases lt_or_eq_of_le (le_trans h1 h2) with h | h
    · simp [h]
    · simp [h]

/-! ## C1: every level of a result is sorted -/

/-- C1: for a consistent `localeCompare`, every level of the result of
`getFilesRecursively` (the result and the `children` of every directory entry
at any depth), in the generator and in the server, has its directories before
its files and each kind in non-decreasing `name` order; the result is a
permutation of the entries pushed by the loop; and the listing
`[b.md, A/, a.js]` yields the names `[A, a.js, b]` (given that `b` collates
after `a.js`). -/
theorem C1_levels_sorted (localeCompare : String → String → Int)
    (hc : Consistent localeCompare) (listing : Listing) (relativePath : String) :
    (∀ lv ∈ levels (Generator.getFilesRecursively localeCompare listing relativePath),
        lv.Pairwise (DirsFirstThenName localeCompare)) ∧
    (∀ lv ∈ levels (Server.getFilesRecursively localeCompare listing relativePath),
        lv.Pairwise (DirsFirstThenName localeCompare)) ∧
    (∀ items : List FsNode,
        (Generator.getFilesRecursively localeCompare (.ok items) relativePath).Perm
            (Generator.forEach localeCompare items relativePath) ∧
        (Server.getFilesRecursively localeCompare (.ok items) relativePath).Perm
            (Server.forEach localeCompare items relativePath)) ∧
    (0 < localeCompare "b" "a.js" →
      ∀ (textB textA : String) (contentB contentA : Option String) (sub : Listing),
        (Generator.getFilesRecursively localeCompare
            (.ok [.file "b.md" (some textB), .dir "A" sub, .file "a.js" (some textA)])
            relativePath).map Entry.name = ["A", "a.js", "b"] ∧
        (Server.getFilesRecursively localeCompare
            (.ok [.file "b.md" contentB, .dir "A" sub, .file "a.js" contentA])
            relativePath).map Entry.name = ["A", "a.js", "b"]) := by
  refine ⟨gen_levels_sorted hc listing relativePath, srv_levels_sorted hc listing relativePath,
    fun items => ⟨?_, ?_⟩, ?_⟩
  · rw [Generator.getFilesRecursively]
    exact sortEntries_perm _ _
  · rw [Server.getFilesRecursively]
    exact sortEntries_perm _ _
  · intro hlt textB textA contentB contentA sub
    have e1 : endsWith "b.md" ".md" = true := by decide
    have e2 : endsWith "a.js" ".md" = false := by decide
    have e3 : endsWith "a.js" ".js" = true := by decide
    have e4 : Generator.isExcluded "b.md" = false := by decide
    have e5 : Generator.isExcluded "A" = false := by decide
    have e6 : Generator.isExcluded "a.js" = false := by decide
    have e7 : replace "b.md" ".md" "" = "b" := by decide
    have e8 : ("a.js" != "generate-static-data.js") = true := by decide
    have hnle : ¬ localeCompare "b" "a.js" ≤ 0 := not_le.2 hlt
    constructor
    · simp [Generator.getFilesRecursively, Generator.forEach, e1, e2, e3, e4, e5, e6, e7, e8,
        sortEntries, List.insertionSort, List.orderedInsert, entryLE, compareFn,
        Entry.isDirectory, Entry.name, hnle]
    · simp [Server.getFilesRecursively, Server.forEach, e1, e2, e3, e7,
        sortEntries, List.insertionSort, List.orderedInsert, entryLE, compareFn,
        Entry.isDirectory, Entry.name, hnle]

/-- C1 at the listing `[b.md, A/, a.js]` under `codeCompare`. -/
theorem C1_levels_sorted_witness :
    Consistent codeCompare ∧ 0 < codeCompare "b" "a.js" ∧
    (Generator.getFilesRecursively codeCompare
        (.ok [.file "b.md" (some "B"), .dir "A" (.ok []), .file "a.js" (some "J")])
        "").map Entry.name = ["A", "a.js", "b"] :=
  ⟨codeCompare_consistent, by decide,
    ((C1_levels_sorted codeCompare codeCompare_consistent (.ok []) "").2.2.2 (by decide)
      "B" "J" none none (.ok [])).1⟩

/-! ## C2: the display name of a markdown entry -/

/-- C2: at the file name `intro.mdx.md`, which ends with `.md`, both walkers
emit the name `introx.md`: `replace` removes the first `.md`, not the trailing
one, so the file name is not the emitted name followed by `.md`. At
`notes.md.md` the name is `notes.md`. -/
theorem C2_first_md_removed (localeCompare : String → String → Int) :
    endsWith "intro.mdx.md" ".md" = true ∧
    Generator.getFilesRecursively localeCompare (.ok [.file "intro.mdx.md" (some "text")]) "" =
      [.file "introx.md" "intro.mdx.md" (.string "📄") "markdown" (some "text")] ∧
    Server.getFilesRecursively localeCompare (.ok [.file "intro.mdx.md" (some "text")]) "" =
      [.file "introx.md" "intro.mdx.md" (.string "📄") "markdown" none] ∧
    "introx.md" ++ ".md" ≠ "intro.mdx.md" ∧
    replace "notes.md.md" ".md" "" = "notes.md" := by
  have e1 : endsWith "intro.mdx.md" ".md" = true := by decide
  have e2 : Generator.isExcluded "intro.mdx.md" = false := by decide
  have e3 : replace "intro.mdx.md" ".md" "" = "introx.md" := by decide
  have e4 : pathJoin ["", "intro.mdx.md"] = "intro.mdx.md" := by decide
  refine ⟨e1, ?_, ?_, by decide, by decide⟩
  · simp [Generator.getFilesRecursively, Generator.forEach, e1, e2, e3, e4, sortEntries]
  · simp [Server.getFilesRecursively, Server.forEach, e1, e3, e4, sortEntries]

/-! ## C4: the server's walker prunes nothing -/

/-- C4: on a listing holding the hidden directory `.git` with a file
`config.md`, the server's walker emits the entry `.git` with the child
`config`, while the generator's walker emits nothing. -/
theorem C4_server_emits_hidden (localeCompare : String → String → Int) :
    Server.getFilesRecursively localeCompare
        (.ok [.dir ".git" (.ok [.file "config.md" (some "text")])]) "" =
      [.directory ".git" ".git" (.string "📁")
        [.file "config" ".git/config.md" (.string "📄") "markdown" none] true] ∧
    Generator.getFilesRecursively localeCompare
        (.ok [.dir ".git" (.ok [.file "config.md" (some "text")])]) "" = [] := by
  have e1 : endsWith "config.md" ".md" = true := by decide
  have e2 : Generator.isExcluded ".git" = true := by decide
  have e3 : replace "config.md" ".md" "" = "config" := by decide
  have e4 : pathJoin ["", ".git"] = ".git" := by decide
  have e5 : pathJoin [".git", "config.md"] = ".git/config.md" := by decide
  constructor
  · simp [Server.getFilesRecursively, Server.forEach, e1, e3, e4, e5, sortEntries]
  · simp [Generator.getFilesRecursively, Generator.forEach, e2, sortEntries]

/-! ## C7: the icon lookup -/

theorem getFolderIcon_of_key (key glyph : String) (hm : (key, glyph) ∈ icons) :
    getFolderIcon key = .string glyph := by
  simp only [icons, List.mem_cons, Prod.mk.injEq, List.mem_singleton, List.not_mem_nil,
    or_false] at hm
  rcases hm with h | h | h | h | h | h | h | h | h | h | h | h | h | h | h | h | h | h | h |
    h | h | h | h | h <;> (obtain ⟨rfl, rfl⟩ := h; decide)

theorem getFolderIcon_of_other (name : String) (h1 : icons.lookup name = none)
    (h2 : objectPrototypeKeys.contains name = false) :
    getFolderIcon name = .string "📁" := by
  unfold getFolderIcon getProperty
  rw [h1]
  simp only [h2]
  rfl

/-- C7: at the name `constructor`, which is not a key of the table,
`getFolderIcon` returns the member inherited from `Object.prototype`, which is
not the glyph `📁` and not a string; at the key `React` it returns the table's
glyph and at `notes` the glyph `📁`. -/
theorem C7_inherited_member_returned :
    icons.lookup "constructor" = none ∧
    getFolderIcon "constructor" = .inherited "constructor" ∧
    getFolderIcon "constructor" ≠ .string "📁" ∧
    getFolderIcon "React" = .string "⚛️" ∧
    getFolderIcon "notes" = .string "📁" := by
  decide

/-! ## C3: the generator prunes excluded names -/

mutual
theorem gen_prune_listing (cmp : String → String → Int) :
    ∀ (listing : Listing) (rel : String),
      Generator.getFilesRecursively cmp listing rel =
        Generator.getFilesRecursively cmp (pruneListing listing) rel
  | .fails, rel => by rw [pruneListing]
  | .ok items, rel => by
    rw [pruneListing, Generator.getFilesRecursively, Generator.getFilesRecursively,
      gen_prune_items cmp items rel]
theorem gen_prune_items (cmp : String → String → Int) :
    ∀ (items : List FsNode) (rel : String),
      Generator.forEach cmp items rel = Generator.forEach cmp (pruneItems items) rel
  | [], rel => by rw [pruneItems]
  | .dir name listing :: rest, rel => by
    rw [pruneItems, gen_forEach_dir]
    simp only [FsNode.name]
    by_cases hx : Generator.isExcluded name = true
    · rw [if_pos hx, if_pos hx]
      exact gen_prune_items cmp rest rel
    · rw [if_neg hx, if_neg hx, pruneNode, gen_forEach_dir, if_neg hx,
        ← gen_prune_listing cmp listing, ← gen_prune_items cmp rest rel]
  | .file name content :: rest, rel => by
    rw [pruneItems]
    simp only [FsNode.name]
    by_cases hx : Generator.isExcluded name = true
    · rw [if_pos hx, gen_forEach_file, if_pos hx]
      exact gen_prune_items cmp rest rel
    · rw [if_neg hx, pruneNode, gen_forEach_file, gen_forEach_file,
        ← gen_prune_items cmp rest rel]
end

mutual
theorem names_pruneListing :
    ∀ (listing : Listing), ∀ n ∈ (pruneListing listing).names, Generator.isExcluded n = false
  | .fails => by simp [pruneListing, Listing.names]
  | .ok items => by
    rw [pruneListing, Listing.names]
    exact names_pruneItems items
theorem names_pruneItems :
    ∀ (items : List FsNode), ∀ n ∈ itemNames (pruneItems items), Generator.isExcluded n = false
  | [] => by simp [pruneItems, itemNames]
  | .dir name listing :: rest => by
    rw [pruneItems]
    simp only [FsNode.name]
    by_cases hx : Generator.isExcluded name = true
    · rw [if_pos hx]
      exact names_pruneItems rest
    · rw [if_neg hx, pruneNode, itemNames, FsNode.names]
      intro n hn
      simp only [List.cons_append, List.mem_cons, List.mem_append] at hn
      rcases hn with rfl | hn | hn
      · simpa using hx
      · exact names_pruneListing listing n hn
      · exact names_pruneItems rest n hn
  | .file name content :: rest => by
    rw [pruneItems]
    simp only [FsNode.name]
    by_cases hx : Generator.isExcluded name = true
    · rw [if_pos hx]
      exact names_pruneItems rest
    · rw [if_neg hx, pruneNode, itemNames, FsNode.names]
      intro n hn
      simp only [List.cons_append, List.nil_append, List.mem_cons] at hn
      rcases hn with rfl | hn
      · simpa using hx
      · exact names_pruneItems rest n hn
end

theorem startsWith_dot_replace (name : String) (h : startsWith name "." = false) :
    startsWith (replace name ".md" "") "." = false := by
  unfold startsWith replace at *
  cases hd : name.data with
  | nil => rfl
  | cons c cs =>
    rw [hd] at h
    have hc : ('.' == c) = false := by simpa [List.isPrefixOf] using h
    have hp : List.isPrefixOf ".md".data (c :: cs) = false := by
      show List.isPrefixOf ['.', 'm', 'd'] (c :: cs) = false
      simp [List.isPrefixOf, hc]
    show List.isPrefixOf ['.'] (replaceFirst ".md".data "".data (c :: cs)) = false
    rw [replaceFirst, hp]
    simp [List.isPrefixOf, hc]

theorem not_startsWith_of_not_excluded (name : String)
    (h : ¬ Generator.isExcluded name = true) : startsWith name "." = false := by
  unfold Generator.isExcluded at h
  cases hs : startsWith name "." with
  | false => rfl
  | true => rw [hs] at h; simp at h

theorem levels_sortEntries_forall (cmp : String → String → Int) (P : Entry → Prop)
    (l : List Entry) (h1 : ∀ e ∈ l, P e) (h2 : ∀ lv ∈ nestedLevels l, ∀ e ∈ lv, P e) :
    ∀ lv ∈ levels (sortEntries cmp l), ∀ e ∈ lv, P e := by
  intro lv hlv
  rcases List.mem_cons.1 hlv with rfl | hn
  · intro e he
    exact h1 e ((sortEntries_perm cmp l).mem_iff.1 he)
  · exact h2 lv ((mem_nestedLevels_of_perm (sortEntries_perm cmp l) lv).1 hn)

mutual
theorem gen_levels_allowed (cmp : String → String → Int) :
    ∀ (listing : Listing) (rel : String),
      ∀ lv ∈ levels (Generator.getFilesRecursively cmp listing rel), ∀ e ∈ lv, e.Allowed
  | .fails, rel => by
    rw [Generator.getFilesRecursively]
    exact levels_sortEntries_forall cmp _ [] (by simp) (by simp [nestedLevels])
  | .ok items, rel => by
    rw [Generator.getFilesRecursively]
    exact levels_sortEntries_forall cmp _ _ (gen_forEach_allowed cmp items rel).1
      (gen_forEach_allowed cmp items rel).2
theorem gen_forEach_allowed (cmp : String → String → Int) :
    ∀ (items : List FsNode) (rel : String),
      (∀ e ∈ Generator.forEach cmp items rel, e.Allowed) ∧
      (∀ lv ∈ nestedLevels (Generator.forEach cmp items rel), ∀ e ∈ lv, e.Allowed)
  | [], rel => by simp [Generator.forEach, nestedLevels]
  | .dir name listing :: rest, rel => by
    have ih := gen_forEach_allowed cmp rest rel
    rw [gen_forEach_dir]
    by_cases hx : Generator.isExcluded name = true
    · rw [if_pos hx]
      exact ih
    · rw [if_neg hx]
      constructor
      · intro e he
        rcases List.mem_cons.1 he with rfl | he
        · exact ⟨not_startsWith_of_not_excluded name hx, fun _ => by simpa [Entry.name] using hx⟩
        · exact ih.1 e he
      · intro lv hlv
        simp only [nestedLevels, List.mem_append] at hlv
        rcases hlv with hlv | hlv
        · exact gen_levels_allowed cmp listing _ lv hlv
        · exact ih.2 lv hlv
  | .file name content :: rest, rel => by
    have ih := gen_forEach_allowed cmp rest rel
    rw [gen_forEach_file]
    by_cases hx : Generator.isExcluded name = true
    · rw [if_pos hx]
      exact ih
    · rw [if_neg hx]
      have hs := not_startsWith_of_not_excluded name hx
      split
      · cases content with
        | none => simp [nestedLevels]
        | some text =>
          constructor
          · intro e he
            rcases List.mem_cons.1 he with rfl | he
            · exact ⟨startsWith_dot_replace name hs, fun hd => by simp [Entry.isDirectory] at hd⟩
            · exact ih.1 e he
          · simpa [nestedLevels] using ih.2
      · split
        · cases content with
          | none => simp [nestedLevels]
          | some text =>
            constructor
            · intro e he
              rcases List.mem_cons.1 he with rfl | he
              · exact ⟨hs, fun hd => by simp [Entry.isDirectory] at hd⟩
              · exact ih.1 e he
            · simpa [nestedLevels] using ih.2
        · exact ih
end

/-- C3: the generator's `getFilesRecursively` returns on any listing what it
returns on the listing with every excluded `Dirent` (a name of `excludeDirs`,
or one beginning with `.`) removed at every depth, a listing in which no such
name is left; so the result does not depend on what lies below an excluded
name. No entry at any depth of the result has a `name` beginning with `.`, and
no directory entry has an excluded `name`. -/
theorem C3_generator_prunes (localeCompare : String → String → Int)
    (listing : Listing) (relativePath : String) :
    Generator.getFilesRecursively localeCompare listing relativePath =
      Generator.getFilesRecursively localeCompare (pruneListing listing) relativePath ∧
    (∀ n ∈ (pruneListing listing).names,
      n ∉ Generator.excludeDirs ∧ startsWith n "." = false) ∧
    (∀ other : Listing, pruneListing other = pruneListing listing →
      Generator.getFilesRecursively localeCompare other relativePath =
        Generator.getFilesRecursively localeCompare listing relativePath) ∧
    (∀ lv ∈ levels (Generator.getFilesRecursively localeCompare listing relativePath),
      ∀ e ∈ lv, startsWith e.name "." = false ∧
        (e.isDirectory = true → e.name ∉ Generator.excludeDirs)) := by
  have hex : ∀ n, Generator.isExcluded n = false →
      n ∉ Generator.excludeDirs ∧ startsWith n "." = false := by
    intro n hn
    unfold Generator.isExcluded at hn
    simpa using hn
  refine ⟨gen_prune_listing localeCompare listing relativePath, ?_, ?_, ?_⟩
  · intro n hn
    exact hex n (names_pruneListing listing n hn)
  · intro other ho
    rw [gen_prune_listing localeCompare other, ho, ← gen_prune_listing localeCompare listing]
  · intro lv hlv e he
    have ha := gen_levels_allowed localeCompare listing relativePath lv hlv e he
    exact ⟨ha.1, fun hd => (hex _ (ha.2 hd)).1⟩

/-- C3 at two listings that differ only below `node_modules`. -/
theorem C3_generator_prunes_witness :
    Generator.getFilesRecursively codeCompare
        (.ok [.dir "node_modules" .fails, .file "a.md" (some "x")]) "" =
      Generator.getFilesRecursively codeCompare
        (.ok [.dir "node_modules" (.ok [.file "pkg.md" (some "y")]),
          .file "a.md" (some "x")]) "" :=
  (C3_generator_prunes codeCompare
    (.ok [.dir "node_modules" (.ok [.file "pkg.md" (some "y")]), .file "a.md" (some "x")])
    "").2.2.1 (.ok [.dir "node_modules" .fails, .file "a.md" (some "x")]) (by rfl)

/-! ## C6: failures do not leave the walker -/

theorem sortEntries_nil (cmp : String → String → Int) : sortEntries cmp [] = [] := rfl

theorem gen_forEach_append_congr (cmp : String → String → Int) (rel : String)
    (l₁ l₂ : List FsNode) (h : Generator.forEach cmp l₁ rel = Generator.forEach cmp l₂ rel) :
    ∀ pre : List FsNode,
      Generator.forEach cmp (pre ++ l₁) rel = Generator.forEach cmp (pre ++ l₂) rel
  | [] => h
  | .dir name listing :: pre => by
    rw [List.cons_append, List.cons_append, gen_forEach_dir, gen_forEach_dir,
      gen_forEach_append_congr cmp rel l₁ l₂ h pre]
  | .file name content :: pre => by
    rw [List.cons_append, List.cons_append, gen_forEach_file, gen_forEach_file,
      gen_forEach_append_congr cmp rel l₁ l₂ h pre]

theorem srv_forEach_append (cmp : String → String → Int) (rel : String) (l : List FsNode) :
    ∀ pre : List FsNode,
      Server.forEach cmp (pre ++ l) rel = Server.forEach cmp pre rel ++ Server.forEach cmp l rel
  | [] => by simp [Server.forEach]
  | .dir name listing :: pre => by
    rw [List.cons_append, srv_forEach_dir, srv_forEach_dir, srv_forEach_append cmp rel l pre,
      List.cons_append]
  | .file name content :: pre => by
    rw [List.cons_append, srv_forEach_file, srv_forEach_file, srv_forEach_append cmp rel l pre]
    split
    · rfl
    · split <;> rfl

theorem gen_forEach_append (cmp : String → String → Int) (rel : String) (l : List FsNode) :
    ∀ pre : List FsNode, (∀ n, FsNode.file n none ∉ pre) →
      Generator.forEach cmp (pre ++ l) rel =
        Generator.forEach cmp pre rel ++ Generator.forEach cmp l rel
  | [], _ => by simp [Generator.forEach]
  | .dir name listing :: pre, hr => by
    have ih := gen_forEach_append cmp rel l pre
      (fun n hn => hr n (List.mem_cons_of_mem _ hn))
    rw [List.cons_append, gen_forEach_dir, gen_forEach_dir, ih]
    split <;> rfl
  | .file name content :: pre, hr => by
    have ih := gen_forEach_append cmp rel l pre
      (fun n hn => hr n (List.mem_cons_of_mem _ hn))
    rw [List.cons_append, gen_forEach_file, gen_forEach_file, ih]
    cases content with
    | none => exact absurd (List.mem_cons_self _ _) (hr name)
    | some text =>
      split
      · rfl
      · split
        · rfl
        · split <;> rfl

/-- C6: `getFilesRecursively` is a total function of the filesystem state, in
the generator and in the server. When listing `dirPath` fails it returns the
empty sequence. A subdirectory whose listing fails is walked as an empty
directory: the result is that of the same listing with this subdirectory
empty, its entry has `children` empty and `hasChildren` false, and the entries
of its siblings stay in the result (in the generator: when the loop reaches the
subdirectory, that is, its name is not excluded and no file before it fails to
be read). -/
theorem C6_failures_contained (localeCompare : String → String → Int) (relativePath : String)
    (pre post : List FsNode) (name : String) :
    Generator.getFilesRecursively localeCompare .fails relativePath = [] ∧
    Server.getFilesRecursively localeCompare .fails relativePath = [] ∧
    Generator.getFilesRecursively localeCompare (.ok (pre ++ .dir name .fails :: post))
        relativePath =
      Generator.getFilesRecursively localeCompare (.ok (pre ++ .dir name (.ok []) :: post))
        relativePath ∧
    Server.getFilesRecursively localeCompare (.ok (pre ++ .dir name .fails :: post))
        relativePath =
      Server.getFilesRecursively localeCompare (.ok (pre ++ .dir name (.ok []) :: post))
        relativePath ∧
    (Entry.directory name (pathJoin [relativePath, name]) (.string "📁") [] false ∈
        Server.getFilesRecursively localeCompare (.ok (pre ++ .dir name .fails :: post))
          relativePath ∧
      ∀ e ∈ Server.getFilesRecursively localeCompare (.ok (pre ++ post)) relativePath,
        e ∈ Server.getFilesRecursively localeCompare (.ok (pre ++ .dir name .fails :: post))
          relativePath) ∧
    (Generator.isExcluded name = false → (∀ n, FsNode.file n none ∉ pre) →
      Entry.directory name (pathJoin [relativePath, name]) (getFolderIcon name) [] false ∈
        Generator.getFilesRecursively localeCompare (.ok (pre ++ .dir name .fails :: post))
          relativePath ∧
      ∀ e ∈ Generator.getFilesRecursively localeCompare (.ok (pre ++ post)) relativePath,
        e ∈ Generator.getFilesRecursively localeCompare
          (.ok (pre ++ .dir name .fails :: post)) relativePath) := by
  have hg : Generator.getFilesRecursively localeCompare .fails (pathJoin [relativePath, name])
      = [] := by
    rw [Generator.getFilesRecursively]; rfl
  have hs : Server.getFilesRecursively localeCompare .fails (pathJoin [relativePath, name])
      = [] := by
    rw [Server.getFilesRecursively]; rfl
  refine ⟨by rw [Generator.getFilesRecursively]; rfl, by rw [Server.getFilesRecursively]; rfl,
    ?_, ?_, ⟨?_, ?_⟩, ?_⟩
  · rw [Generator.getFilesRecursively, Generator.getFilesRecursively]
    congr 1
    apply gen_forEach_append_congr
    rw [gen_forEach_dir, gen_forEach_dir, Generator.getFilesRecursively,
      Generator.getFilesRecursively, Generator.forEach]
  · rw [Server.getFilesRecursively, Server.getFilesRecursively, srv_forEach_append,
      srv_forEach_append, srv_forEach_dir, srv_forEach_dir, Server.getFilesRecursively,
      Server.getFilesRecursively, Server.forEach]
  · rw [Server.getFilesRecursively, sortEntries, List.mem_insertionSort, srv_forEach_append,
      srv_forEach_dir, hs]
    simp
  · intro e he
    rw [Server.getFilesRecursively, sortEntries, List.mem_insertionSort,
      srv_forEach_append] at he
    rw [Server.getFilesRecursively, sortEntries, List.mem_insertionSort, srv_forEach_append,
      srv_forEach_dir]
    rcases List.mem_append.1 he with h | h
    · exact List.mem_append_left _ h
    · exact List.mem_append_right _ (List.mem_cons_of_mem _ h)
  · intro hx hr
    have hx' : ¬ Generator.isExcluded name = true := by simp [hx]
    constructor
    · rw [Generator.getFilesRecursively, sortEntries, List.mem_insertionSort,
        gen_forEach_append _ _ _ _ hr, gen_forEach_dir, if_neg hx', hg]
      simp
    · intro e he
      rw [Generator.getFilesRecursively, sortEntries, List.mem_insertionSort,
        gen_forEach_append _ _ _ _ hr] at he
      rw [Generator.getFilesRecursively, sortEntries, List.mem_insertionSort,
        gen_forEach_append _ _ _ _ hr, gen_forEach_dir, if_neg hx']
      rcases List.mem_append.1 he with h | h
      · exact List.mem_append_left _ h
      · exact List.mem_append_right _ (List.mem_cons_of_mem _ h)

/-- C6 at the listing `[a.md, docs/, b.js]` whose subdirectory `docs` cannot be
listed. -/
theorem C6_failures_contained_witness :
    Generator.isExcluded "docs" = false ∧
    Entry.directory "docs" "docs" (.string "📁") [] false ∈
      Generator.getFilesRecursively codeCompare
        (.ok [.file "a.md" (some "x"), .dir "docs" .fails, .file "b.js" (some "y")]) "" :=
  ⟨by decide,
    ((C6_failures_contained codeCompare "" [.file "a.md" (some "x")]
      [.file "b.js" (some "y")] "docs").2.2.2.2.2 (by decide) (by simp)).1⟩

/-! ## C8: the server's walker against the generator's -/

theorem asServedList_eq_map : ∀ l : List Entry, asServedList l = l.map Entry.asServed
  | [] => by rw [asServedList]; rfl
  | e :: es => by rw [asServedList, asServedList_eq_map es]; rfl

theorem asServed_isDirectory (e : Entry) : e.asServed.isDirectory = e.isDirectory := by
  cases e <;> rw [Entry.asServed] <;> rfl

theorem asServed_name (e : Entry) : e.asServed.name = e.name := by
  cases e <;> rw [Entry.asServed] <;> rfl

theorem entryLE_asServed (cmp : String → String → Int) (a b : Entry) :
    entryLE cmp a b ↔ entryLE cmp a.asServed b.asServed := by
  unfold entryLE compareFn
  rw [asServed_isDirectory, asServed_isDirectory, asServed_name, asServed_name]

theorem asServedList_sortEntries (cmp : String → String → Int) (l : List Entry) :
    asServedList (sortEntries cmp l) = sortEntries cmp (asServedList l) := by
  rw [asServedList_eq_map, asServedList_eq_map]
  exact List.map_insertionSort (entryLE cmp) (entryLE cmp) Entry.asServed l
    (fun a _ b _ => entryLE_asServed cmp a b)

theorem length_asServedList (l : List Entry) : (asServedList l).length = l.length := by
  rw [asServedList_eq_map, List.length_map]

mutual
theorem srv_eq_asServed_listing (cmp : String → String → Int) :
    ∀ (listing : Listing) (rel : String), listing.plain = true →
      Server.getFilesRecursively cmp listing rel =
        asServedList (Generator.getFilesRecursively cmp listing rel)
  | .fails, rel, _ => by
    rw [Server.getFilesRecursively, Generator.getFilesRecursively, sortEntries_nil, asServedList]
  | .ok items, rel, hp => by
    rw [Listing.plain] at hp
    rw [Server.getFilesRecursively, Generator.getFilesRecursively, asServedList_sortEntries,
      srv_eq_asServed_items cmp items rel hp]
theorem srv_eq_asServed_items (cmp : String → String → Int) :
    ∀ (items : List FsNode) (rel : String), itemsPlain items = true →
      Server.forEach cmp items rel = asServedList (Generator.forEach cmp items rel)
  | [], rel, _ => by rw [Server.forEach, Generator.forEach, asServedList]
  | .dir name listing :: rest, rel, hp => by
    rw [itemsPlain, FsNode.plain] at hp
    simp only [Bool.and_eq_true, Bool.not_eq_true'] at hp
    obtain ⟨⟨hx, hl⟩, hr⟩ := hp
    have hx' : ¬ Generator.isExcluded name = true := by simp [hx]
    rw [srv_forEach_dir, gen_forEach_dir, if_neg hx', asServedList, Entry.asServed,
      srv_eq_asServed_items cmp rest rel hr, srv_eq_asServed_listing cmp listing _ hl,
      length_asServedList]
  | .file name content :: rest, rel, hp => by
    rw [itemsPlain, FsNode.plain] at hp
    simp only [Bool.and_eq_true, Bool.not_eq_true', Bool.or_eq_true, bne_iff_ne, ne_eq] at hp
    obtain ⟨⟨⟨hx, hn⟩, hc⟩, hr⟩ := hp
    have hx' : ¬ Generator.isExcluded name = true := by simp [hx]
    have ih := srv_eq_asServed_items cmp rest rel hr
    rw [srv_forEach_file, gen_forEach_file, if_neg hx']
    by_cases hmd : endsWith name ".md" = true
    · rw [if_pos hmd, if_pos hmd]
      cases content with
      | none => simp [hmd] at hc
      | some text => simp only []; rw [asServedList, Entry.asServed, ih]
    · rw [if_neg hmd, if_neg hmd]
      by_cases hjs : endsWith name ".js" = true
      · have hjs' : (endsWith name ".js" && name != "generate-static-data.js") = true := by
          simp [hjs, hn]
        rw [if_pos hjs, if_pos hjs']
        cases content with
        | none => simp [hjs] at hc
        | some text => simp only []; rw [asServedList, Entry.asServed, ih]
      · have hjs' : ¬ (endsWith name ".js" && name != "generate-static-data.js") = true := by
          simp [hjs]
        rw [if_neg hjs, if_neg hjs', ih]
end

/-- C8 as stated fails at a listing holding the single directory `React`: the
generator gives it the icon of the table, the server the icon `📁`, so the
server's result is not the generator's with `content` removed. -/
theorem C8_icon_differs :
    Listing.plain (.ok [.dir "React" (.ok [])]) = true ∧
    Server.getFilesRecursively codeCompare (.ok [.dir "React" (.ok [])]) "" ≠
      withoutContentList
        (Generator.getFilesRecursively codeCompare (.ok [.dir "React" (.ok [])]) "") := by
  have h1 : Server.getFilesRecursively codeCompare (.ok [.dir "React" (.ok [])]) "" =
      [.directory "React" "React" (.string "📁") [] false] := by rfl
  have h2 : withoutContentList
      (Generator.getFilesRecursively codeCompare (.ok [.dir "React" (.ok [])]) "") =
      [.directory "React" "React" (.string "⚛️") [] false] := by rfl
  refine ⟨by rfl, ?_⟩
  rw [h1, h2]
  intro h
  simp at h

/-- C8, amended: on every tree in which no name is excluded by the generator,
no file is named `generate-static-data.js` and every `.md` and `.js` file can
be read, the server's `getFilesRecursively` returns the generator's result with
`content` removed from every file entry and the `icon` of every directory
entry replaced by `📁`: same entries, same order, same `name`, `path`,
`isDirectory`, `fileType`, `children` and `hasChildren`. -/
theorem C8_server_matches_generator (localeCompare : String → String → Int)
    (listing : Listing) (relativePath : String) (hp : listing.plain = true) :
    Server.getFilesRecursively localeCompare listing relativePath =
      asServedList (Generator.getFilesRecursively localeCompare listing relativePath) :=
  srv_eq_asServed_listing localeCompare listing relativePath hp

/-- C8, amended, at a tree with the directory `React` and two files. -/
theorem C8_server_matches_generator_witness :
    Listing.plain (.ok [.dir "React" (.ok [.file "hooks.md" (some "text")]),
        .file "a.js" (some "code")]) = true ∧
    Server.getFilesRecursively codeCompare
        (.ok [.dir "React" (.ok [.file "hooks.md" (some "text")]),
          .file "a.js" (some "code")]) "" =
      asServedList (Generator.getFilesRecursively codeCompare
        (.ok [.dir "React" (.ok [.file "hooks.md" (some "text")]),
          .file "a.js" (some "code")]) "") :=
  ⟨by rfl, C8_server_matches_generator codeCompare _ "" (by rfl)⟩

/-! ## C9: the order of a listing -/

theorem eq_of_perm_of_pairwise_on {r : Entry → Entry → Prop} :
    ∀ {l₁ l₂ : List Entry}, l₁.Perm l₂ → l₁.Pairwise r → l₂.Pairwise r →
      (∀ a ∈ l₁, ∀ b ∈ l₁, r a b → r b a → a = b) → l₁ = l₂
  | [], l₂, hp, _, _, _ => (List.Perm.nil_eq hp)
  | a :: t₁, [], hp, _, _, _ => absurd hp.length_eq (by simp)
  | a :: t₁, b :: t₂, hp, h₁, h₂, anti => by
    have hab : a = b := by
      have ha : a ∈ b :: t₂ := hp.mem_iff.1 (List.mem_cons_self _ _)
      have hb : b ∈ a :: t₁ := hp.mem_iff.2 (List.mem_cons_self _ _)
      rcases List.mem_cons.1 ha with h | h
      · exact h
      · rcases List.mem_cons.1 hb with h' | h'
        · exact h'.symm
        · exact anti a (List.mem_cons_self _ _) b hb
            (List.rel_of_pairwise_cons h₁ h') (List.rel_of_pairwise_cons h₂ h)
    subst hab
    have ht : t₁ = t₂ :=
      eq_of_perm_of_pairwise_on (List.Perm.cons_inv hp) (List.Pairwise.of_cons h₁)
        (List.Pairwise.of_cons h₂)
        (fun x hx y hy => anti x (List.mem_cons_of_mem _ hx) y (List.mem_cons_of_mem _ hy))
    rw [ht]

theorem gen_forEach_cons (cmp : String → String → Int) (rel : String) (x : FsNode)
    (l : List FsNode) (hx : ∀ n, x ≠ FsNode.file n none) :
    Generator.forEach cmp (x :: l) rel =
      Generator.forEach cmp [x] rel ++ Generator.forEach cmp l rel :=
  gen_forEach_append cmp rel l [x] (fun n hn => hx n (List.mem_singleton.1 hn).symm)

theorem gen_forEach_perm (cmp : String → String → Int) (rel : String) {l₁ l₂ : List FsNode}
    (hp : l₁.Perm l₂) : (∀ n, FsNode.file n none ∉ l₁) →
      (Generator.forEach cmp l₁ rel).Perm (Generator.forEach cmp l₂ rel) := by
  induction hp with
  | nil => intro _; exact List.Perm.refl _
  | @cons x la lb _ ih =>
    intro hr
    have hx : ∀ n, x ≠ FsNode.file n none := fun n h => hr n (h ▸ List.mem_cons_self _ _)
    rw [gen_forEach_cons cmp rel x la hx, gen_forEach_cons cmp rel x lb hx]
    exact List.Perm.append_left _ (ih (fun n hn => hr n (List.mem_cons_of_mem _ hn)))
  | swap x y l =>
    intro hr
    have hy : ∀ n, y ≠ FsNode.file n none := fun n h => hr n (h ▸ List.mem_cons_self _ _)
    have hx : ∀ n, x ≠ FsNode.file n none :=
      fun n h => hr n (h ▸ List.mem_cons_of_mem _ (List.mem_cons_self _ _))
    rw [gen_forEach_cons cmp rel y (x :: l) hy, gen_forEach_cons cmp rel x l hx,
      gen_forEach_cons cmp rel x (y :: l) hx, gen_forEach_cons cmp rel y l hy,
      ← List.append_assoc, ← List.append_assoc]
    exact List.Perm.append_right _ List.perm_append_comm
  | trans h₁ _ ih₁ ih₂ =>
    intro hr
    exact (ih₁ hr).trans (ih₂ (fun n hn => hr n (h₁.mem_iff.2 hn)))

/-- C9 as stated fails. The files `x.js` and `x.js.md` are both shown under
the name `x.js`, the comparator ties on them, and the stable sort keeps them
in listing order: the two orders of this listing give different results. And
when a file cannot be read, the loop stops there, so the result holds the
entries of the items listed before it. -/
theorem C9_listing_order_shows :
    List.Perm [FsNode.file "x.js" (some "a"), FsNode.file "x.js.md" (some "b")]
      [FsNode.file "x.js.md" (some "b"), FsNode.file "x.js" (some "a")] ∧
    Generator.getFilesRecursively codeCompare
        (.ok [.file "x.js" (some "a"), .file "x.js.md" (some "b")]) "" ≠
      Generator.getFilesRecursively codeCompare
        (.ok [.file "x.js.md" (some "b"), .file "x.js" (some "a")]) "" ∧
    Generator.getFilesRecursively codeCompare
        (.ok [.file "a.md" none, .file "b.md" (some "b")]) "" ≠
      Generator.getFilesRecursively codeCompare
        (.ok [.file "b.md" (some "b"), .file "a.md" none]) "" := by
  refine ⟨List.Perm.swap _ _ _, ?_, ?_⟩
  · intro h
    exact absurd (congrArg (List.map Entry.path) h) (by decide)
  · intro h
    exact absurd (congrArg List.length h) (by decide)

/-- C9, amended: for a consistent `localeCompare`, two listings of a directory
that are permutations of each other give the same result of the generator's
`getFilesRecursively`, provided that no file of the listing fails to be read
and no two distinct entries pushed for it tie under the comparator (same kind
and names that compare as equal). -/
theorem C9_order_independent (localeCompare : String → String → Int)
    (hc : Consistent localeCompare) (l₁ l₂ : List FsNode) (relativePath : String)
    (hp : l₁.Perm l₂) (hr : ∀ n, FsNode.file n none ∉ l₁)
    (hties : ∀ a ∈ Generator.forEach localeCompare l₁ relativePath,
      ∀ b ∈ Generator.forEach localeCompare l₁ relativePath,
        a.isDirectory = b.isDirectory → localeCompare a.name b.name ≤ 0 →
          localeCompare b.name a.name ≤ 0 → a = b) :
    Generator.getFilesRecursively localeCompare (.ok l₁) relativePath =
      Generator.getFilesRecursively localeCompare (.ok l₂) relativePath := by
  rw [Generator.getFilesRecursively, Generator.getFilesRecursively]
  have hperm : (sortEntries localeCompare (Generator.forEach localeCompare l₁ relativePath)).Perm
      (sortEntries localeCompare (Generator.forEach localeCompare l₂ relativePath)) :=
    ((sortEntries_perm _ _).trans (gen_forEach_perm localeCompare relativePath hp hr)).trans
      (sortEntries_perm _ _).symm
  refine eq_of_perm_of_pairwise_on hperm (sortEntries_sorted hc _) (sortEntries_sorted hc _) ?_
  intro a ha b hb hab hba
  have ha' := (sortEntries_perm _ _).mem_iff.1 ha
  have hb' := (sortEntries_perm _ _).mem_iff.1 hb
  have h1 := (entryLE_iff _ a b).1 hab
  have h2 := (entryLE_iff _ b a).1 hba
  have hk : a.isDirectory = b.isDirectory := by
    cases hA : a.isDirectory <;> cases hB : b.isDirectory <;> simp_all [DirsFirstThenName]
  exact hties a ha' b hb' hk (h1.2 hk) (h2.2 hk.symm)

/-- C9, amended, at the listing `[b.md, A/, a.js]` and the same listing with
its first two items exchanged. -/
theorem C9_order_independent_witness :
    List.Perm [FsNode.file "b.md" (some "B"), FsNode.dir "A" (.ok []),
        FsNode.file "a.js" (some "J")]
      [FsNode.dir "A" (.ok []), FsNode.file "b.md" (some "B"),
        FsNode.file "a.js" (some "J")] ∧
    Generator.getFilesRecursively codeCompare
        (.ok [.file "b.md" (some "B"), .dir "A" (.ok []), .file "a.js" (some "J")]) "" =
      Generator.getFilesRecursively codeCompare
        (.ok [.dir "A" (.ok []), .file "b.md" (some "B"), .file "a.js" (some "J")]) "" :=
  ⟨List.Perm.swap _ _ _,
    C9_order_independent codeCompare codeCompare_consistent _ _ "" (List.Perm.swap _ _ _)
      (by simp)
      (by
        have hf : Generator.forEach codeCompare
            [.file "b.md" (some "B"), .dir "A" (.ok []), .file "a.js" (some "J")] "" =
            [.file "b" "b.md" (.string "📄") "markdown" (some "B"),
             .directory "A" "A" (.string "📁") [] false,
             .file "a.js" "a.js" (.string "📜") "javascript" (some "J")] := by rfl
        rw [hf]
        intro a ha b hb
        simp only [List.mem_cons, List.mem_singleton, List.not_mem_nil, or_false] at ha hb
        rcases ha with rfl | rfl | rfl <;> rcases hb with rfl | rfl | rfl <;>
          first
          | (intro _ _ _; rfl)
          | (intro h; exact absurd h (by decide))
          | (intro _ h; exact absurd h (by decide))
          | (intro _ _ h; exact absurd h (by decide)))⟩

/-! ## Paths -/

theorem splitSlash_ne_nil : ∀ s : List Char, splitSlash s ≠ []
  | [] => by simp [splitSlash]
  | c :: cs => by
    rw [splitSlash]
    split
    · simp
    · split <;> simp

theorem splitSlash_cons_slash (cs : List Char) : splitSlash ('/' :: cs) = [] :: splitSlash cs := by
  rw [splitSlash, if_pos rfl]

theorem splitSlash_cons_other (c : Char) (cs : List Char) (hc : c ≠ '/') :
    ∃ seg segs, splitSlash cs = seg :: segs ∧ splitSlash (c :: cs) = (c :: seg) :: segs := by
  cases h : splitSlash cs with
  | nil => exact absurd h (splitSlash_ne_nil cs)
  | cons seg segs =>
    refine ⟨seg, segs, rfl, ?_⟩
    rw [splitSlash, if_neg hc, h]

theorem splitSlash_append_slash (b : List Char) : ∀ a : List Char,
    splitSlash (a ++ '/' :: b) = splitSlash a ++ splitSlash b
  | [] => by rw [List.nil_append, splitSlash_cons_slash]; rfl
  | c :: a => by
    have ih := splitSlash_append_slash b a
    by_cases hc : c = '/'
    · subst hc
      rw [List.cons_append, splitSlash_cons_slash, splitSlash_cons_slash, ih, List.cons_append]
    · obtain ⟨seg, segs, h1, h2⟩ := splitSlash_cons_other c a hc
      obtain ⟨seg', segs', h1', h2'⟩ := splitSlash_cons_other c (a ++ '/' :: b) hc
      rw [List.cons_append, h2', h2]
      rw [ih, h1, List.cons_append] at h1'
      cases h1'
      rfl

theorem splitSlash_of_no_slash : ∀ s : List Char, '/' ∉ s → splitSlash s = [s]
  | [], _ => rfl
  | c :: cs, h => by
    have hc : c ≠ '/' := fun e => h (e ▸ List.mem_cons_self _ _)
    have ih := splitSlash_of_no_slash cs (fun hm => h (List.mem_cons_of_mem _ hm))
    rw [splitSlash, if_neg hc, ih]

theorem splitSlash_no_slash : ∀ (s : List Char), ∀ seg ∈ splitSlash s, '/' ∉ seg
  | [] => by simp [splitSlash]
  | c :: cs => by
    have ih := splitSlash_no_slash cs
    by_cases hc : c = '/'
    · subst hc
      rw [splitSlash_cons_slash]
      intro seg hseg
      rcases List.mem_cons.1 hseg with rfl | h
      · simp
      · exact ih seg h
    · obtain ⟨seg', segs, h1, h2⟩ := splitSlash_cons_other c cs hc
      rw [h2]
      rw [h1] at ih
      intro seg hseg
      rcases List.mem_cons.1 hseg with rfl | h
      · intro hm
        rcases List.mem_cons.1 hm with e | hm'
        · exact hc e.symm
        · exact ih seg' (List.mem_cons_self _ _) hm'
      · exact ih seg (List.mem_cons_of_mem _ h)

theorem joinSlash_cons_cons (a b : List Char) (rest : List (List Char)) :
    joinSlash (a :: b :: rest) = a ++ '/' :: joinSlash (b :: rest) := by
  rw [joinSlash]
  simp

theorem joinSlash_cons_of_ne_nil (a : List Char) : ∀ (rest : List (List Char)), rest ≠ [] →
    joinSlash (a :: rest) = a ++ '/' :: joinSlash rest
  | [], h => absurd rfl h
  | b :: rest, _ => joinSlash_cons_cons a b rest

theorem joinSlash_append : ∀ (xs ys : List (List Char)), xs ≠ [] → ys ≠ [] →
    joinSlash (xs ++ ys) = joinSlash xs ++ '/' :: joinSlash ys
  | [], _, h, _ => absurd rfl h
  | [a], ys, _, hy => by
    rw [List.singleton_append, joinSlash_cons_of_ne_nil a ys hy]
    rfl
  | a :: b :: xs, ys, _, hy => by
    rw [List.cons_append, joinSlash_cons_of_ne_nil a ((b :: xs) ++ ys) (by simp),
      joinSlash_cons_cons, joinSlash_append (b :: xs) ys (by simp) hy, List.append_assoc]
    rfl

theorem splitSlash_joinSlash : ∀ (parts : List (List Char)), parts ≠ [] →
    splitSlash (joinSlash parts) = parts.flatMap splitSlash
  | [], h => absurd rfl h
  | [a], _ => by simp [joinSlash]
  | a :: b :: rest, _ => by
    rw [joinSlash_cons_cons, splitSlash_append_slash,
      splitSlash_joinSlash (b :: rest) (by simp), List.flatMap_cons a]

theorem normalizeStep_skip (b : Bool) (st : List (List Char)) (seg : List Char)
    (h : seg = [] ∨ seg = ['.']) : normalizeStep b st seg = st := by
  unfold normalizeStep
  rw [if_pos h]

theorem normalizeStep_push (b : Bool) (st : List (List Char)) (seg : List Char)
    (h1 : ¬ (seg = [] ∨ seg = ['.'])) (h2 : seg ≠ ['.', '.']) :
    normalizeStep b st seg = seg :: st := by
  unfold normalizeStep
  rw [if_neg h1, if_neg h2]

theorem keptSegments_cons_skip (seg : List Char) (segs : List (List Char))
    (h : seg = [] ∨ seg = ['.']) : keptSegments (seg :: segs) = keptSegments segs := by
  unfold keptSegments
  rw [List.filter_cons]
  simp [h]

theorem keptSegments_cons_keep (seg : List Char) (segs : List (List Char))
    (h : ¬ (seg = [] ∨ seg = ['.'])) :
    keptSegments (seg :: segs) = seg :: keptSegments segs := by
  unfold keptSegments
  rw [List.filter_cons]
  simp [h]

theorem foldl_normalizeStep_plain (b : Bool) : ∀ (segs st : List (List Char)),
    (∀ seg ∈ segs, PlainSegment seg) →
      segs.foldl (normalizeStep b) st = segs.reverse ++ st
  | [], st, _ => rfl
  | seg :: segs, st, h => by
    have hp := h seg (List.mem_cons_self _ _)
    have h1 : ¬ (seg = [] ∨ seg = ['.']) := fun e => e.elim hp.1 hp.2.1
    rw [List.foldl_cons, normalizeStep_push b st seg h1 hp.2.2.1,
      foldl_normalizeStep_plain b segs (seg :: st)
        (fun x hx => h x (List.mem_cons_of_mem _ hx))]
    simp

theorem foldl_normalizeStep_noDotDot (b : Bool) : ∀ (segs st : List (List Char)),
    (∀ seg ∈ segs, seg ≠ ['.', '.']) →
      segs.foldl (normalizeStep b) st = (keptSegments segs).reverse ++ st
  | [], st, _ => rfl
  | seg :: segs, st, h => by
    have h2 := h seg (List.mem_cons_self _ _)
    have ih := fun st' => foldl_normalizeStep_noDotDot b segs st'
      (fun x hx => h x (List.mem_cons_of_mem _ hx))
    by_cases h1 : seg = [] ∨ seg = ['.']
    · rw [List.foldl_cons, normalizeStep_skip b st seg h1, ih, keptSegments_cons_skip seg segs h1]
    · rw [List.foldl_cons, normalizeStep_push b st seg h1 h2, ih,
        keptSegments_cons_keep seg segs h1]
      simp

theorem normalizeStep_allPlain (st : List (List Char)) (seg : List Char)
    (hst : ∀ x ∈ st, PlainSegment x) (hseg : '/' ∉ seg) :
    ∀ x ∈ normalizeStep false st seg, PlainSegment x := by
  by_cases h1 : seg = [] ∨ seg = ['.']
  · rw [normalizeStep_skip false st seg h1]
    exact hst
  · by_cases h2 : seg = ['.', '.']
    · unfold normalizeStep
      rw [if_neg h1, if_pos h2]
      cases st with
      | nil => simp
      | cons last before =>
        simp only [Bool.false_eq_true, if_false]
        split
        · exact hst
        · exact fun x hx => hst x (List.mem_cons_of_mem _ hx)
    · rw [normalizeStep_push false st seg h1 h2]
      intro x hx
      rcases List.mem_cons.1 hx with rfl | hx
      · exact ⟨fun e => h1 (Or.inl e), fun e => h1 (Or.inr e), h2, hseg⟩
      · exact hst x hx

theorem foldl_normalizeStep_allPlain : ∀ (segs st : List (List Char)),
    (∀ x ∈ st, PlainSegment x) → (∀ seg ∈ segs, '/' ∉ seg) →
      ∀ x ∈ segs.foldl (normalizeStep false) st, PlainSegment x
  | [], st, hst, _ => hst
  | seg :: segs, st, hst, hs => by
    rw [List.foldl_cons]
    exact foldl_normalizeStep_allPlain segs _
      (normalizeStep_allPlain st seg hst (hs seg (List.mem_cons_self _ _)))
      (fun x hx => hs x (List.mem_cons_of_mem _ hx))

theorem joinSlash_eq_nil : ∀ (segs : List (List Char)), (∀ x ∈ segs, x ≠ []) →
    (joinSlash segs = [] ↔ segs = [])
  | [], _ => by simp [joinSlash]
  | [a], h => by simpa [joinSlash] using h a (List.mem_cons_self _ _)
  | a :: b :: rest, _ => by rw [joinSlash_cons_cons]; simp

theorem normalizeChars_absolute (p : List Char) (ha : p.head? = some '/') :
    normalizeChars p =
      if joinSlash (normalizeSegments false (splitSlash p)) = [] then ['/']
      else '/' :: joinSlash (normalizeSegments false (splitSlash p)) ++
        (if p.getLast? = some '/' then ['/'] else []) := by
  have hp : p ≠ [] := by
    intro e
    rw [e] at ha
    simp at ha
  unfold normalizeChars
  rw [if_neg hp]
  simp [ha]

theorem flatMap_splitSlash_of_no_slash : ∀ (segs : List (List Char)),
    (∀ x ∈ segs, '/' ∉ x) → segs.flatMap splitSlash = segs
  | [], _ => rfl
  | a :: rest, h => by
    rw [List.flatMap_cons a, splitSlash_of_no_slash a (h a (List.mem_cons_self _ _)),
      flatMap_splitSlash_of_no_slash rest (fun x hx => h x (List.mem_cons_of_mem _ hx))]
    rfl

theorem splitSlash_rootChars (R : List (List Char)) (hR : ∀ x ∈ R, PlainSegment x) :
    splitSlash (rootChars R) = [] :: (R ++ [[]]) := by
  unfold rootChars
  by_cases h : R = []
  · subst h
    rfl
  · rw [if_neg h, List.cons_append, splitSlash_cons_slash, splitSlash_append_slash,
      splitSlash_joinSlash R h,
      flatMap_splitSlash_of_no_slash R (fun x hx => (hR x hx).2.2.2)]
    rfl

theorem keptSegments_append (xs ys : List (List Char)) :
    keptSegments (xs ++ ys) = keptSegments xs ++ keptSegments ys := by
  unfold keptSegments
  rw [List.filter_append]

theorem keptSegments_plain : ∀ (R : List (List Char)), (∀ x ∈ R, PlainSegment x) →
    keptSegments R = R
  | [], _ => rfl
  | a :: rest, h => by
    have ha := h a (List.mem_cons_self _ _)
    rw [keptSegments_cons_keep a rest (fun e => e.elim ha.1 ha.2.1),
      keptSegments_plain rest (fun x hx => h x (List.mem_cons_of_mem _ hx))]

theorem normalizeSegments_root (R : List (List Char)) (hR : ∀ x ∈ R, PlainSegment x)
    (E : List (List Char)) (hE : ∀ seg ∈ E, seg ≠ ['.', '.']) :
    normalizeSegments false (splitSlash (rootChars R) ++ E) = R ++ keptSegments E := by
  unfold normalizeSegments
  rw [splitSlash_rootChars R hR, foldl_normalizeStep_noDotDot]
  · rw [List.append_nil, List.reverse_reverse, List.cons_append,
      keptSegments_cons_skip [] _ (Or.inl rfl), keptSegments_append, keptSegments_append,
      keptSegments_plain R hR, keptSegments_cons_skip [] [] (Or.inl rfl)]
    simp [keptSegments]
  · intro seg hseg
    rcases List.mem_append.1 hseg with h | h
    · rcases List.mem_cons.1 h with rfl | h
      · simp
      · rcases List.mem_append.1 h with h | h
        · exact (hR seg h).2.2.1
        · rw [List.mem_singleton.1 h]
          simp
    · exact hE seg h

theorem rootChars_head (R : List (List Char)) : (rootChars R).head? = some '/' := by
  unfold rootChars
  split <;> rfl

theorem rootChars_ne_nil (R : List (List Char)) : rootChars R ≠ [] := by
  unfold rootChars
  split <;> simp

theorem joinSlash_cons_head (a : List Char) (rest : List (List Char)) (c : Char)
    (h : a.head? = some c) : (joinSlash (a :: rest)).head? = some c := by
  cases rest with
  | nil => simpa [joinSlash] using h
  | cons b rest =>
    rw [joinSlash_cons_cons]
    cases a with
    | nil => simp at h
    | cons x xs => simpa using h

theorem pathJoin_cons_data (root : String) (rest : List String) (h : root ≠ "") :
    (pathJoin (root :: rest)).data =
      normalizeChars (joinSlash (root.data :: (rest.filter (fun a => a ≠ "")).map String.data)) := by
  unfold pathJoin
  rw [List.filter_cons_of_pos (by simpa using h), List.map_cons]

theorem flatMap_splitSlash_noDotDot : ∀ (rest : List String), (∀ s ∈ rest, NoDotDot s) →
    ∀ seg ∈ ((rest.filter (fun a => a ≠ "")).map String.data).flatMap splitSlash,
      seg ≠ ['.', '.'] := by
  intro rest h seg hseg
  rw [List.mem_flatMap] at hseg
  obtain ⟨part, hpart, hs⟩ := hseg
  rw [List.mem_map] at hpart
  obtain ⟨str, hstr, rfl⟩ := hpart
  exact h str (List.mem_filter.1 hstr).1 seg hs

/-- The text of `path.join(root, ...rest)` when `root` is a root directory in
normal form and no segment of `rest` is `..`. -/
theorem pathJoin_root_data (R : List (List Char)) (hR : ∀ x ∈ R, PlainSegment x)
    (root : String) (hroot : root.data = rootChars R) (rest : List String)
    (hrest : ∀ s ∈ rest, NoDotDot s) :
    (pathJoin (root :: rest)).data =
      if joinSlash (R ++ keptSegments
          (((rest.filter (fun a => a ≠ "")).map String.data).flatMap splitSlash)) = []
      then ['/']
      else '/' :: joinSlash (R ++ keptSegments
          (((rest.filter (fun a => a ≠ "")).map String.data).flatMap splitSlash)) ++
        (if (joinSlash (root.data :: (rest.filter (fun a => a ≠ "")).map String.data)).getLast?
            = some '/' then ['/'] else []) := by
  have hne : root ≠ "" := by
    intro e
    rw [e] at hroot
    exact rootChars_ne_nil R hroot.symm
  rw [pathJoin_cons_data root rest hne, normalizeChars_absolute _
    (joinSlash_cons_head _ _ '/' (hroot ▸ rootChars_head R)),
    splitSlash_joinSlash _ (by simp), List.flatMap_cons root.data, hroot,
    normalizeSegments_root R hR _ (flatMap_splitSlash_noDotDot rest hrest)]

theorem isPrefixOf_append_self : ∀ (l r : List Char), l.isPrefixOf (l ++ r) = true
  | [], _ => by simp [List.isPrefixOf]
  | a :: l, r => by
    rw [List.cons_append, List.isPrefixOf, isPrefixOf_append_self l r]
    simp

theorem rootDir_form (dirname : String) (h : startsWith dirname "/" = true) :
    ∃ R : List (List Char), (∀ x ∈ R, PlainSegment x) ∧ (rootDir dirname).data = rootChars R := by
  have hhead : dirname.data.head? = some '/' := by
    unfold startsWith at h
    cases hd : dirname.data with
    | nil => rw [hd] at h; simp [List.isPrefixOf] at h
    | cons c cs =>
      rw [hd] at h
      have hc : ('/' == c) = true := by simpa [List.isPrefixOf] using h
      have : c = '/' := (eq_of_beq hc).symm
      rw [this]
      rfl
  have hne : dirname ≠ "" := by
    intro e
    rw [e] at hhead
    simp at hhead
  have hfilter : (["../"].filter (fun a : String => a ≠ "")).map String.data =
      [['.', '.', '/']] := by decide
  refine ⟨normalizeSegments false
    (splitSlash (joinSlash [dirname.data, ['.', '.', '/']])), ?_, ?_⟩
  · intro x hx
    unfold normalizeSegments at hx
    exact foldl_normalizeStep_allPlain _ [] (by simp) (splitSlash_no_slash _) x
      (List.mem_reverse.1 hx)
  · have hplain : ∀ x ∈ normalizeSegments false
        (splitSlash (joinSlash [dirname.data, ['.', '.', '/']])), x ≠ [] := by
      intro x hx
      unfold normalizeSegments at hx
      exact (foldl_normalizeStep_allPlain _ [] (by simp) (splitSlash_no_slash _) x
        (List.mem_reverse.1 hx)).1
    unfold rootDir
    rw [pathJoin_cons_data dirname _ hne, hfilter,
      normalizeChars_absolute _ (joinSlash_cons_head _ _ '/' hhead)]
    have hlast : (joinSlash [dirname.data, ['.', '.', '/']]).getLast? = some '/' := by
      rw [joinSlash_cons_cons]
      simp [joinSlash]
    rw [hlast, if_pos rfl]
    unfold rootChars
    by_cases hR : normalizeSegments false
        (splitSlash (joinSlash [dirname.data, ['.', '.', '/']])) = []
    · rw [if_pos hR, if_pos ((joinSlash_eq_nil _ hplain).2 hR)]
    · rw [if_neg hR, if_neg (fun e => hR ((joinSlash_eq_nil _ hplain).1 e))]

theorem rootChars_extends (R X : List (List Char)) (hR : ∀ x ∈ R, PlainSegment x)
    (T : List Char) (hT : T = [] ∨ T = ['/']) :
    ∃ tail, (if joinSlash (R ++ X) = [] then ['/'] else '/' :: joinSlash (R ++ X) ++ T)
      ++ ['/'] = rootChars R ++ tail := by
  unfold rootChars
  by_cases hRn : R = []
  · subst hRn
    rw [if_pos rfl]
    split
    · exact ⟨['/'], rfl⟩
    · exact ⟨joinSlash ([] ++ X) ++ T ++ ['/'], by simp⟩
  · rw [if_neg hRn]
    have hjR : joinSlash R ≠ [] :=
      fun e => hRn ((joinSlash_eq_nil R (fun x hx => (hR x hx).1)).1 e)
    by_cases hX : X = []
    · subst hX
      rw [List.append_nil, if_neg hjR]
      rcases hT with rfl | rfl
      · exact ⟨[], by simp⟩
      · exact ⟨['/'], by simp⟩
    · rw [joinSlash_append R X hRn hX, if_neg (by simp)]
      exact ⟨joinSlash X ++ T ++ ['/'], by simp⟩

/-- A path joined onto a root directory from arguments without `..` segment
lies inside the root. -/
theorem insideRoot_pathJoin (R : List (List Char)) (hR : ∀ x ∈ R, PlainSegment x)
    (root : String) (hroot : root.data = rootChars R) (rest : List String)
    (hrest : ∀ s ∈ rest, NoDotDot s) :
    insideRoot root (pathJoin (root :: rest)) = true := by
  unfold insideRoot startsWith
  rw [String.data_append, pathJoin_root_data R hR root hroot rest hrest, hroot]
  obtain ⟨tail, ht⟩ := rootChars_extends R (keptSegments
    (((rest.filter (fun a => a ≠ "")).map String.data).flatMap splitSlash)) hR
    (if (joinSlash (rootChars R :: (rest.filter (fun a => a ≠ "")).map String.data)).getLast?
      = some '/' then ['/'] else [])
    (by split <;> simp)
  show List.isPrefixOf (rootChars R) (_ ++ ['/']) = true
  rw [ht]
  exact isPrefixOf_append_self _ _

theorem splitSlash_append_no_slash (b : List Char) (hb : '/' ∉ b) : ∀ a : List Char,
    ∃ init last, splitSlash a = init ++ [last] ∧ splitSlash (a ++ b) = init ++ [last ++ b]
  | [] => ⟨[], [], rfl, by simpa using splitSlash_of_no_slash b hb⟩
  | c :: a => by
    obtain ⟨init, last, h1, h2⟩ := splitSlash_append_no_slash b hb a
    by_cases hc : c = '/'
    · subst hc
      refine ⟨[] :: init, last, ?_, ?_⟩
      · rw [splitSlash_cons_slash, h1]; rfl
      · rw [List.cons_append, splitSlash_cons_slash, h2]; rfl
    · obtain ⟨seg, segs, e1, e2⟩ := splitSlash_cons_other c a hc
      obtain ⟨seg', segs', e1', e2'⟩ := splitSlash_cons_other c (a ++ b) hc
      rw [List.cons_append, e2, e2']
      cases init with
      | nil =>
        rw [h1] at e1
        rw [h2] at e1'
        simp only [List.nil_append, List.cons.injEq] at e1 e1'
        obtain ⟨rfl, rfl⟩ := e1
        obtain ⟨rfl, rfl⟩ := e1'
        exact ⟨[], c :: last, rfl, rfl⟩
      | cons i is =>
        rw [h1] at e1
        rw [h2] at e1'
        simp only [List.cons_append, List.cons.injEq] at e1 e1'
        obtain ⟨rfl, rfl⟩ := e1
        obtain ⟨rfl, rfl⟩ := e1'
        exact ⟨(c :: i) :: is, last, rfl, rfl⟩

theorem noDotDot_append_md (s : String) (h : NoDotDot s) : NoDotDot (s ++ ".md") := by
  unfold NoDotDot at *
  rw [String.data_append]
  obtain ⟨init, last, h1, h2⟩ := splitSlash_append_no_slash ".md".data (by decide) s.data
  rw [h2]
  intro seg hseg
  rcases List.mem_append.1 hseg with hm | hm
  · exact h seg (h1 ▸ List.mem_append_left _ hm)
  · rw [List.mem_singleton.1 hm]
    intro e
    have hl := congrArg List.length e
    rw [List.length_append] at hl
    have : (".md".data).length = 3 := rfl
    rw [this] at hl
    simp at hl

theorem noDotDot_readme : NoDotDot "README.md" := by
  unfold NoDotDot
  decide

theorem firstExisting_some (host : Host) : ∀ (l : List String) (p : String),
    firstExisting host l = some p → p ∈ l ∧ host.existsSync p = true
  | [], p, h => by simp [firstExisting] at h
  | q :: rest, p, h => by
    unfold firstExisting at h
    by_cases hq : host.existsSync q = true
    · rw [if_pos hq] at h
      cases h
      exact ⟨List.mem_cons_self _ _, hq⟩
    · rw [if_neg hq] at h
      obtain ⟨hm, he⟩ := firstExisting_some host rest p h
      exact ⟨List.mem_cons_of_mem _ hm, he⟩

theorem firstExisting_none (host : Host) : ∀ (l : List String),
    firstExisting host l = none → ∀ p ∈ l, host.existsSync p = false
  | [], _ => by simp
  | q :: rest, h => by
    unfold firstExisting at h
    by_cases hq : host.existsSync q = true
    · rw [if_pos hq] at h
      cases h
    · rw [if_neg hq] at h
      intro p hp
      rcases List.mem_cons.1 hp with rfl | hp
      · simpa using hq
      · exact firstExisting_none host rest h p hp

/-- The path the handler settles on is one of `possiblePaths`, and it exists:
the search of the subfolder is only entered when `folder/file` does not
exist, which it requires to exist. -/
theorem resolveFilePath_some (host : Host) (root folderName fileName p : String)
    (h : resolveFilePath host root folderName fileName = .ok (some p)) :
    p ∈ possiblePaths root folderName fileName ∧ host.existsSync p = true := by
  unfold resolveFilePath at h
  cases hfe : firstExisting host (possiblePaths root folderName fileName) with
  | some q =>
    rw [hfe] at h
    cases h
    exact firstExisting_some host _ _ hfe
  | none =>
    rw [hfe] at h
    have hnone := firstExisting_none host _ hfe (pathJoin [root, folderName, fileName])
      (by simp [possiblePaths])
    unfold findMarkdown at h
    simp only [hnone] at h
    cases h

theorem getFile_of_decoded (host : Host) (dirname folder file folderName fileName : String)
    (hf : host.decodeURIComponent folder = .ok folderName)
    (hg : host.decodeURIComponent file = .ok fileName) :
    getFile host dirname folder file =
      match resolveFilePath host (rootDir dirname) folderName fileName with
      | .error message => ⟨500, .failed "Failed to read file" message⟩
      | .ok none =>
        ⟨404, .notFound "File not found"
          ((possiblePaths (rootDir dirname) folderName fileName).map
            (fun p => replace p (rootDir dirname) ""))⟩
      | .ok (some filePath) =>
        if filePath ≠ "" ∧ host.existsSync filePath = true then
          match host.readFileSync filePath with
          | .ok content => ⟨200, .file content (replace filePath (rootDir dirname) "")⟩
          | .error message => ⟨500, .failed "Failed to read file" message⟩
        else
          ⟨404, .notFound "File not found"
            ((possiblePaths (rootDir dirname) folderName fileName).map
              (fun p => replace p (rootDir dirname) ""))⟩ := by
  unfold getFile
  simp only [hf, hg, bind, Except.bind, pure, Except.pure]
  cases hres : resolveFilePath host (rootDir dirname) folderName fileName with
  | error message => rfl
  | ok found =>
    cases found with
    | none => rfl
    | some filePath =>
      by_cases hc : filePath ≠ "" ∧ host.existsSync filePath = true
      · simp only [if_pos hc]
        cases hread : host.readFileSync filePath <;> rfl
      · simp only [if_neg hc]

/-! ## C10: the paths of the single-file endpoint -/

theorem possiblePaths_inside (dirname folderName fileName : String)
    (hdir : startsWith dirname "/" = true) (h1 : NoDotDot folderName)
    (h2 : NoDotDot fileName) :
    ∀ p ∈ possiblePaths (rootDir dirname) folderName fileName,
      insideRoot (rootDir dirname) p = true := by
  obtain ⟨R, hR, hroot⟩ := rootDir_form dirname hdir
  intro p hp
  unfold possiblePaths at hp
  simp only [List.mem_cons, List.mem_singleton, List.not_mem_nil, or_false] at hp
  rcases hp with rfl | rfl | rfl
  · apply insideRoot_pathJoin R hR _ hroot
    intro s hs
    simp only [List.mem_cons, List.mem_singleton, List.not_mem_nil, or_false] at hs
    rcases hs with rfl | rfl
    · exact h1
    · exact h2
  · apply insideRoot_pathJoin R hR _ hroot
    intro s hs
    simp only [List.mem_cons, List.mem_singleton, List.not_mem_nil, or_false] at hs
    rcases hs with rfl | rfl
    · exact h1
    · exact noDotDot_append_md _ h2
  · apply insideRoot_pathJoin R hR _ hroot
    intro s hs
    simp only [List.mem_cons, List.mem_singleton, List.not_mem_nil, or_false] at hs
    rcases hs with rfl | rfl | rfl
    · exact h1
    · exact h2
    · exact noDotDot_readme

/-- C10: with the folder parameter `..` and the file parameter `secret.txt`
the handler joins the parameters onto the root `/srv/app/`, tests and reads
`/srv/secret.txt`, which is outside the root, and answers 200 with that file's
content and the absolute `filePath`. -/
theorem C10_reads_outside_root :
    rootDir "/srv/app/server" = "/srv/app/" ∧
    pathJoin [rootDir "/srv/app/server", "..", "secret.txt"] = "/srv/secret.txt" ∧
    insideRoot (rootDir "/srv/app/server") "/srv/secret.txt" = false ∧
    getFile (oneFileHost "/srv/secret.txt" "top secret") "/srv/app/server" ".." "secret.txt" =
      ⟨200, .file "top secret" "/srv/secret.txt"⟩ := by
  decide

/-! ## C5: the `.md` candidate of the single-file endpoint -/

theorem normalizeChars_ne_nil (p : List Char) : normalizeChars p ≠ [] := by
  unfold normalizeChars
  by_cases hp : p = []
  · rw [if_pos hp]
    simp
  · rw [if_neg hp]
    simp only []
    generalize joinSlash (normalizeSegments _ (splitSlash p)) = body
    by_cases hb : body = []
    · rw [if_pos hb]
      split
      · simp
      · split <;> simp
    · rw [if_neg hb]
      simp [hb]

theorem pathJoin_ne_empty (args : List String) : pathJoin args ≠ "" := by
  unfold pathJoin
  split
  · decide
  · intro e
    exact normalizeChars_ne_nil _ (congrArg String.data e)

theorem replaceFirst_self_append (pat rest : List Char) (hp : pat ≠ []) :
    replaceFirst pat [] (pat ++ rest) = rest := by
  cases pat with
  | nil => exact absurd rfl hp
  | cons c cs =>
    have h := isPrefixOf_append_self (c :: cs) rest
    rw [List.cons_append] at h ⊢
    rw [replaceFirst, if_pos h, List.nil_append, ← List.cons_append, List.drop_left]

theorem getLast?_append_no_slash (a b : List Char) (hb : b ≠ []) (hs : '/' ∉ b) :
    (a ++ b).getLast? ≠ some '/' := by
  obtain ⟨init, x, rfl⟩ : ∃ init x, b = init ++ [x] :=
    ⟨b.dropLast, b.getLast hb, (List.dropLast_append_getLast hb).symm⟩
  rw [← List.append_assoc, List.getLast?_concat]
  intro e
  cases e
  exact hs (List.mem_append_right _ (List.mem_singleton_self _))

/-- The text of `path.join(root, a, b)` for two names `a` and `b`. -/
theorem pathJoin_root_names (R : List (List Char)) (hR : ∀ x ∈ R, PlainSegment x)
    (root a b : String) (hroot : root.data = rootChars R) (ha : IsName a) (hb : IsName b) :
    (pathJoin [root, a, b]).data = root.data ++ (a.data ++ '/' :: b.data) := by
  have hna : a ≠ "" := fun e => ha.1 (by rw [e])
  have hnb : b ≠ "" := fun e => hb.1 (by rw [e])
  have hfilter : ([a, b].filter (fun s => s ≠ "")).map String.data = [a.data, b.data] := by
    simp [List.filter, hna, hnb]
  have hab : ∀ x ∈ [a.data, b.data], PlainSegment x := by
    intro x hx
    simp only [List.mem_cons, List.mem_singleton, List.not_mem_nil, or_false] at hx
    rcases hx with rfl | rfl
    · exact ha
    · exact hb
  have hnd : ∀ s ∈ [a, b], NoDotDot s := by
    intro s hs seg hseg
    simp only [List.mem_cons, List.mem_singleton, List.not_mem_nil, or_false] at hs
    rcases hs with rfl | rfl
    · rw [splitSlash_of_no_slash _ ha.2.2.2, List.mem_singleton] at hseg
      rw [hseg]
      exact ha.2.2.1
    · rw [splitSlash_of_no_slash _ hb.2.2.2, List.mem_singleton] at hseg
      rw [hseg]
      exact hb.2.2.1
  rw [pathJoin_root_data R hR root hroot [a, b] hnd, hfilter,
    flatMap_splitSlash_of_no_slash _ (fun x hx => (hab x hx).2.2.2), keptSegments_plain _ hab]
  have hne : joinSlash (R ++ [a.data, b.data]) ≠ [] := by
    intro e
    have := (joinSlash_eq_nil (R ++ [a.data, b.data]) (by
      intro x hx
      rcases List.mem_append.1 hx with h | h
      · exact (hR x h).1
      · exact (hab x h).1)).1 e
    simp at this
  have hlast : (joinSlash [root.data, a.data, b.data]).getLast? ≠ some '/' := by
    rw [joinSlash_cons_cons, joinSlash_cons_cons]
    have : root.data ++ '/' :: (a.data ++ '/' :: joinSlash [b.data]) =
        (root.data ++ '/' :: (a.data ++ ['/'])) ++ b.data := by
      simp [joinSlash]
    rw [this]
    exact getLast?_append_no_slash _ _ hb.1 hb.2.2.2
  rw [if_neg hne, if_neg hlast, hroot]
  unfold rootChars
  by_cases hRn : R = []
  · subst hRn
    rw [if_pos rfl, List.nil_append, joinSlash_cons_cons]
    simp [joinSlash]
  · rw [if_neg hRn, joinSlash_append R _ hRn (by simp), joinSlash_cons_cons]
    simp [joinSlash]

theorem isName_append_md (s : String) (h : IsName s) : IsName (s ++ ".md") := by
  unfold IsName PlainSegment at *
  rw [String.data_append]
  have hlen : (s.data ++ ".md".data).length = s.data.length + 3 := by
    rw [List.length_append]
    rfl
  refine ⟨?_, ?_, ?_, ?_⟩
  · intro e
    rw [e] at hlen
    simp at hlen
  · intro e
    rw [e] at hlen
    simp at hlen
  · intro e
    rw [e] at hlen
    simp at hlen
  · intro hm
    rcases List.mem_append.1 hm with hm | hm
    · exact h.2.2.2 hm
    · exact absurd hm (by decide)

theorem unescapeOctets_of_no_percent : ∀ l : List Char, '%' ∉ l →
    unescapeOctets l = some (l.map Sum.inl)
  | [], _ => rfl
  | c :: rest, h => by
    have hc : c ≠ '%' := fun e => h (e ▸ List.mem_cons_self _ _)
    have ih := unescapeOctets_of_no_percent rest (fun hm => h (List.mem_cons_of_mem _ hm))
    unfold unescapeOctets
    rw [if_neg hc, ih]
    rfl

theorem decodeOctets_map_inl : ∀ l : List Char, decodeOctets (l.map Sum.inl) = some l
  | [] => rfl
  | c :: rest => by
    have ih := decodeOctets_map_inl rest
    show (match decodeOctets (rest.map Sum.inl) with
      | some tail => some (c :: tail)
      | none => none) = some (c :: rest)
    rw [ih]

/-- A parameter without `%` is decoded to itself. -/
theorem decodeURIComponent_of_no_percent (s : String) (h : '%' ∉ s.data) :
    decodeURIComponent s = .ok s := by
  unfold decodeURIComponent
  rw [unescapeOctets_of_no_percent s.data h, Option.some_bind, decodeOctets_map_inl]

/-- C5 as stated fails. When only `folder/file.md` exists the handler answers
200 with its text, and `filePath` is `folder/file.md`, the path with the root
directory (which ends with `/`) removed, not `/folder/file.md`. And the
handler passes each parameter through `decodeURIComponent` before it looks for
the file: for the parameter `100%`, with only `React/100%.md` on disk, the
call throws and the answer is 500; for `a%20b`, with only `React/a%20b.md` on
disk, the handler looks for `React/a b.md` and answers 404. -/
theorem C5_filePath_has_no_leading_slash :
    (oneFileHost "/srv/app/folder/file.md" "text").existsSync
      (pathJoin [rootDir "/srv/app/server", "folder", "file"]) = false ∧
    (oneFileHost "/srv/app/folder/file.md" "text").existsSync
      (pathJoin [rootDir "/srv/app/server", "folder", "file" ++ ".md"]) = true ∧
    getFile (oneFileHost "/srv/app/folder/file.md" "text") "/srv/app/server" "folder" "file" =
      ⟨200, .file "text" "folder/file.md"⟩ ∧
    getFile (oneFileHost "/srv/app/folder/file.md" "text") "/srv/app/server" "folder" "file" ≠
      ⟨200, .file "text" "/folder/file.md"⟩ ∧
    (oneFileHost "/srv/app/React/100%.md" "text").existsSync
      (pathJoin [rootDir "/srv/app/server", "React", "100%"]) = false ∧
    (oneFileHost "/srv/app/React/100%.md" "text").existsSync
      (pathJoin [rootDir "/srv/app/server", "React", "100%" ++ ".md"]) = true ∧
    getFile (oneFileHost "/srv/app/React/100%.md" "text") "/srv/app/server" "React" "100%" =
      ⟨500, .failed "Failed to read file" "URI malformed"⟩ ∧
    (oneFileHost "/srv/app/React/a%20b.md" "text").existsSync
      (pathJoin [rootDir "/srv/app/server", "React", "a%20b" ++ ".md"]) = true ∧
    getFile (oneFileHost "/srv/app/React/a%20b.md" "text") "/srv/app/server" "React" "a%20b" =
      ⟨404, .notFound "File not found"
        ["React/a b", "React/a b.md", "React/a b/README.md"]⟩ := by
  decide

/-- C5, amended: when `__dirname` is absolute and the handler's calls of
`decodeURIComponent` turn the two parameters into `folderName` and `fileName`,
and under the root `folderName/fileName` does not exist while
`folderName/fileName.md` exists and reads as `text`, the handler responds with
status 200, `content` equal to `text`, and `filePath` equal to the resolved
path with the root directory removed; when `folderName` and `fileName` are
names of one path segment this is `folderName/fileName.md`, without a leading
slash. -/
theorem C5_markdown_candidate (host : Host)
    (dirname folder file folderName fileName text : String)
    (hdir : startsWith dirname "/" = true)
    (hf : host.decodeURIComponent folder = .ok folderName)
    (hg : host.decodeURIComponent file = .ok fileName)
    (h1 : host.existsSync (pathJoin [rootDir dirname, folderName, fileName]) = false)
    (h2 : host.existsSync (pathJoin [rootDir dirname, folderName, fileName ++ ".md"]) = true)
    (h3 : host.readFileSync (pathJoin [rootDir dirname, folderName, fileName ++ ".md"]) =
      .ok text) :
    getFile host dirname folder file =
      ⟨200, .file text
        (replace (pathJoin [rootDir dirname, folderName, fileName ++ ".md"])
          (rootDir dirname) "")⟩ ∧
    (IsName folderName → IsName fileName →
      replace (pathJoin [rootDir dirname, folderName, fileName ++ ".md"]) (rootDir dirname) "" =
        folderName ++ "/" ++ fileName ++ ".md") := by
  obtain ⟨R, hR, hroot⟩ := rootDir_form dirname hdir
  have hres : resolveFilePath host (rootDir dirname) folderName fileName =
      .ok (some (pathJoin [rootDir dirname, folderName, fileName ++ ".md"])) := by
    unfold resolveFilePath possiblePaths firstExisting firstExisting
    rw [if_neg (by simp [h1]), if_pos h2]
    rfl
  have hne : pathJoin [rootDir dirname, folderName, fileName ++ ".md"] ≠ "" :=
    pathJoin_ne_empty _
  constructor
  · rw [getFile_of_decoded host dirname folder file folderName fileName hf hg, hres]
    simp only [if_pos (show _ ∧ _ from ⟨hne, h2⟩), h3]
  · intro hn1 hn2
    apply String.ext
    have hd := pathJoin_root_names R hR (rootDir dirname) folderName (fileName ++ ".md") hroot
      hn1 (isName_append_md fileName hn2)
    unfold replace
    show replaceFirst (rootDir dirname).data "".data _ = _
    rw [hd, show "".data = [] from rfl,
      replaceFirst_self_append _ _ (hroot ▸ rootChars_ne_nil R)]
    simp [String.data_append]

/-- C5, amended, at the parameters `React` and `hooks`. -/
theorem C5_markdown_candidate_witness :
    IsName "React" ∧ IsName "hooks" ∧
    getFile (oneFileHost "/srv/app/React/hooks.md" "text") "/srv/app/server" "React" "hooks" =
      ⟨200, .file "text"
        (replace (pathJoin [rootDir "/srv/app/server", "React", "hooks" ++ ".md"])
          (rootDir "/srv/app/server") "")⟩ :=
  ⟨by unfold IsName PlainSegment; decide, by unfold IsName PlainSegment; decide,
    (C5_markdown_candidate (oneFileHost "/srv/app/React/hooks.md" "text")
      "/srv/app/server" "React" "hooks" "React" "hooks" "text" (by decide) rfl rfl
      (by decide) (by decide) rfl).1⟩

end InterviewPrep
